import Mathlib

/-
Verification development for the Data_debugger repository
(src/data_processor.py and src/electrical_analyzer_v2.py).

Modelling conventions (shallow embedding):
- Python floats are modelled as exact rationals; float representation
  error, overflow to infinity and NaN-from-arithmetic are out of scope.
  Float literals such as 1.08 are taken at their decimal value.
- A pandas DataFrame is a Table: a list of headers (label plus a Bool
  saying whether the column has a numeric dtype, collapsing float64 and
  int64) and a list of rows; a cell is a number, a text string, a
  datetime (epoch offset) or missing (NaN/NaT/None).
- Per-column loops of the source that touch distinct columns are
  modelled as a single positional pass (the loops are independent:
  each iteration reads the loop column only); pandas label-based column
  access is modelled positionally, which matches the source whenever
  column labels are unique.
- str() of a numeric, datetime or missing cell is only ever used by the
  code in blank-or-not tests; the model renders them via toString, which
  is never blank, exactly like their Python renderings "1.5", "nan",
  "NaT", "1970-01-01 00:00:00".
-/

namespace DataDebugger

set_option maxRecDepth 4000000

/-! ### Generic list and string helpers -/

/-- leading-match test: does the first list occur at the head of the second. -/
def leadMatch : List Char → List Char → Bool
  | [], _ => true
  | _ :: _, [] => false
  | a :: as, b :: bs => a == b && leadMatch as bs

/-- does `pat` occur as a contiguous sublist of the second argument
(Python `pat in hay` on strings). -/
def hasSubList (pat : List Char) : List Char → Bool
  | [] => pat.isEmpty
  | c :: t => leadMatch pat (c :: t) || hasSubList pat t

/-- Python substring test `pat in hay`. -/
def strHasSub (hay pat : String) : Bool := hasSubList pat.toList hay.toList

/-- ASCII lower-casing (Python str.lower on the labels in play); defined
structurally so that proofs can evaluate it. -/
def lowerStr (s : String) : String := String.mk (s.toList.map Char.toLower)

/-- whitespace trim at both ends (Python str.strip), structural. -/
def trimStr (s : String) : String :=
  String.mk (((s.toList.dropWhile Char.isWhitespace).reverse.dropWhile
    Char.isWhitespace).reverse)

/-- does the string start with the given literal (the anchored regex
`^unnamed` of the source), structural. -/
def strStarts (s pat : String) : Bool := leadMatch pat.toList s.toList

/-- decimal digits of a natural number (fuel-based, structural). -/
def natDigitsAux : ℕ → ℕ → List Char
  | 0, _ => []
  | fuel + 1, n =>
    if n < 10 then [Char.ofNat (n + 48)]
    else natDigitsAux fuel (n / 10) ++ [Char.ofNat (n % 10 + 48)]

/-- decimal rendering of a natural number, structural. -/
def natRepr (n : ℕ) : String := String.mk (natDigitsAux (n + 1) n)

/-- rendering of a rational; only its non-blankness is ever observed. -/
def ratRepr (q : ℚ) : String :=
  (if q.num < 0 then "-" else "") ++ natRepr q.num.natAbs ++ "/" ++ natRepr q.den

/-- pairs each element with its position, starting at `n`. -/
def withIdxFrom (n : ℕ) : List α → List (ℕ × α)
  | [] => []
  | a :: t => (n, a) :: withIdxFrom (n + 1) t

/-- pairs each element with its position, starting at 0. -/
def withIdx (l : List α) : List (ℕ × α) := withIdxFrom 0 l

/-- keeps the elements whose mask entry is true (positional boolean mask). -/
def applyMask : List Bool → List α → List α
  | _, [] => []
  | [], _ :: _ => []
  | b :: m, a :: l => if b then a :: applyMask m l else applyMask m l

/-- position in the unmasked list of the j-th surviving element. -/
def nthTrue : List Bool → ℕ → ℕ
  | [], j => j
  | true :: _, 0 => 0
  | true :: m, j + 1 => nthTrue m j + 1
  | false :: m, j => nthTrue m j + 1

/-- value of a digit string, most significant digit first. -/
def digitsVal (ds : List Char) : ℕ := ds.foldl (fun a c => 10 * a + (c.toNat - 48)) 0

/-- characters kept by the numeric-coercion strip `[^\d\.\-\+eE]` of
`_convert_to_numeric`. -/
def numChar (c : Char) : Bool :=
  c.isDigit || c == '.' || c == '-' || c == '+' || c == 'e' || c == 'E'

/-- removes every character the coercion regex strips. -/
def stripNonNumeric (s : String) : String := String.mk (s.toList.filter numChar)

/-- parse an unsigned digit run (the whole list must be digits). -/
def parseNatDigits (cs : List Char) : Option ℕ :=
  if cs.isEmpty then none
  else if cs.all Char.isDigit then some (digitsVal cs) else none

/-- parse an optionally signed integer, as in a float exponent. -/
def parseIntSigned (cs : List Char) : Option ℤ :=
  match cs with
  | '+' :: t => (parseNatDigits t).map Int.ofNat
  | '-' :: t => (parseNatDigits t).map (fun n => -(n : ℤ))
  | _ => (parseNatDigits cs).map Int.ofNat

/-- parse an unsigned decimal: digits, optionally a dot and more digits,
with at least one digit overall (accepts "5.", ".5"; rejects "."). -/
def parseDec (cs : List Char) : Option ℚ :=
  let ip := cs.takeWhile Char.isDigit
  let rest := cs.dropWhile Char.isDigit
  match rest with
  | [] => if ip.isEmpty then none else some ((digitsVal ip : ℚ))
  | '.' :: frac =>
    if frac.all Char.isDigit && !(ip.isEmpty && frac.isEmpty) then
      some ((digitsVal ip : ℚ) + (digitsVal frac : ℚ) / (10 : ℚ) ^ frac.length)
    else none
  | _ => none

/-- parse an optionally signed decimal. -/
def parseSignedDec (cs : List Char) : Option ℚ :=
  match cs with
  | '+' :: t => parseDec t
  | '-' :: t => (parseDec t).map Neg.neg
  | _ => parseDec cs

/-- split at the first exponent marker, if any. -/
def splitAtE : List Char → (List Char × Option (List Char))
  | [] => ([], none)
  | c :: t =>
    if c == 'e' || c == 'E' then ([], some t)
    else
      let p := splitAtE t
      (c :: p.1, p.2)

/-- the float grammar accepted by pandas' numeric parser on a string
made of `[0-9.+-eE]`: signed decimal with optional signed exponent. -/
def parseFloatQ (s : String) : Option ℚ :=
  let p := splitAtE s.toList
  match p.2 with
  | none => parseSignedDec p.1
  | some ecs =>
    match parseSignedDec p.1, parseIntSigned ecs with
    | some q, some z => some (q * (10 : ℚ) ^ z)
    | _, _ => none

/-- round half to even (Python round(), numpy round()). -/
def roundHE (q : ℚ) : ℤ :=
  let f := ⌊q⌋
  let r := q - (f : ℚ)
  if r < 1 / 2 then f
  else if 1 / 2 < r then f + 1
  else if f % 2 = 0 then f else f + 1

/-- round to d decimal places (Python round(x, d) on exact values). -/
def roundTo (d : ℕ) (q : ℚ) : ℚ := ((roundHE (q * (10 : ℚ) ^ d) : ℚ)) / (10 : ℚ) ^ d

/-- Python modulo on rationals: result has the sign of the divisor. -/
def pymod (x m : ℚ) : ℚ := x - m * (⌊x / m⌋ : ℚ)

/-- the phase wrap `((x + 180) % 360) - 180` of the harmonic cleaners. -/
def wrapQ (q : ℚ) : ℚ := pymod (q + 180) 360 - 180

/-! ### Tables -/

/-- one cell of a DataFrame. -/
inductive Cell where
  | num (q : ℚ)
  | str (s : String)
  | dt (q : ℚ)
  | missing
deriving DecidableEq

/-- a column header: its label and whether the column dtype is numeric
(float64 or int64; datetime64 and object count as not numeric). -/
structure Header where
  label : String
  numeric : Bool
deriving DecidableEq

/-- a DataFrame: headers plus rows of cells. -/
structure Table where
  headers : List Header
  rows : List (List Cell)
deriving DecidableEq

def dummyHeader : Header := ⟨"", false⟩

def emptyTable : Table := ⟨[], []⟩

/-- all rows have exactly one cell per header. -/
def rect (t : Table) : Bool := t.rows.all (fun r => r.length == t.headers.length)

/-- the cells of column j, top to bottom. -/
def getCol (t : Table) (j : ℕ) : List Cell := t.rows.map (fun r => r.getD j Cell.missing)

/-- header at position j. -/
def hdrAt (t : Table) (j : ℕ) : Header := t.headers.getD j dummyHeader

/-- str() of a cell, as used by the blank-or-not tests of
`_remove_empty_rows_columns`; only blankness is observable, and the
renderings of numbers, missing values and datetimes are never blank. -/
def strCell : Cell → String
  | Cell.str s => s
  | Cell.missing => "nan"
  | Cell.num q => ratRepr q
  | Cell.dt q => "ts" ++ ratRepr q

/-- cell whose string form strips to the empty string. -/
def blankCell (c : Cell) : Bool := trimStr (strCell c) == ""

def rowAllMissing (r : List Cell) : Bool := r.all (fun c => c == Cell.missing)

def rowAllBlank (r : List Cell) : Bool := r.all blankCell

def colAllMissingB (t : Table) (j : ℕ) : Bool :=
  (getCol t j).all (fun c => c == Cell.missing)

def colAllBlankB (t : Table) (j : ℕ) : Bool := (getCol t j).all blankCell

/-- drop the columns whose mask entry is false. -/
def dropByMask (m : List Bool) (t : Table) : Table :=
  ⟨applyMask m t.headers, t.rows.map (applyMask m)⟩

/-- apply `f` to every cell of every column satisfying `cond`, and `fh`
to the matching headers (one positional pass; the source's per-column
loops write each column at most once and are independent). -/
def mapColsIf (cond : Header → Bool) (fh : Header → Header) (f : Cell → Cell)
    (t : Table) : Table :=
  ⟨t.headers.map (fun h => if cond h then fh h else h),
   t.rows.map (fun r =>
     (withIdx r).map (fun p => if cond (hdrAt t p.1) then f p.2 else p.2))⟩

/-! ### DataProcessor (src/data_processor.py) -/

/-- `numeric_columns_patterns` from `DataProcessor.__init__`. -/
def numeric_columns_patterns (file_type : String) : List String :=
  if file_type = "tendencia" then ["voltage", "current", "power", "frequency", "thd"]
  else if file_type = "armonicos_potencia" then ["harmonic", "magnitude", "phase", "distortion"]
  else if file_type = "armonicos_voltaje" then ["voltage", "harmonic", "amplitude", "phase"]
  else []

/-- the generic numeric indicators of `_is_numeric_column`. -/
def numeric_indicators : List String :=
  ["value", "val", "measurement", "reading", "level", "amplitude",
   "magnitude", "rms", "avg", "min", "max", "std", "mean",
   "percent", "ratio", "factor", "time", "date", "timestamp"]

/-- `_is_numeric_column`. -/
def is_numeric_column (column_name : String) (file_type : String) : Bool :=
  let low := lowerStr column_name
  (numeric_columns_patterns file_type).any (fun p => strHasSub low p) ||
    numeric_indicators.any (fun p => strHasSub low p)

/-- word characters of the regex `\w` (ASCII). -/
def wordChar (c : Char) : Bool := c.isAlphanum || c == '_'

/-- `re.sub` pass removing `[^\w\s]`. -/
def keepWordSpace (s : String) : String :=
  String.mk (s.toList.filter (fun c => wordChar c || c.isWhitespace))

/-- `re.sub(r'\s+', '_')`: each maximal whitespace run becomes one underscore. -/
def collapseGo (prevSpace : Bool) : List Char → List Char
  | [] => []
  | c :: t =>
    if c.isWhitespace then
      if prevSpace then collapseGo true t else '_' :: collapseGo true t
    else c :: collapseGo false t

/-- the label normalization of `_clean_column_names`: strip special
characters, trim, collapse whitespace to underscores, lower-case. -/
def normalizeLabel (s : String) : String :=
  lowerStr (String.mk (collapseGo false (trimStr (keepWordSpace s)).toList))

/-- a pandas axis label: columns carry strings, a fresh Series index
carries integers. -/
abbrev AxisLabel := String ⊕ ℕ

/-- model of aligning a boolean Series used as a `.loc` column indexer:
every column label must occur in the index of the mask Series, else
pandas raises IndexingError (Unalignable boolean Series provided as
indexer). -/
def boolMaskAligns (colLabels : List AxisLabel) (maskIndex : List AxisLabel) : Bool :=
  colLabels.all (fun l => maskIndex.contains l)

/-- faithful `_clean_column_names`: the unnamed-mask is
`pd.Series(df.columns).str.contains(...)`, a Series indexed by the
integers 0..n-1, while the columns are labelled by strings, so the
alignment fails whenever the table has at least one column. -/
def clean_column_names_strict (t : Table) : Except Unit Table :=
  let t1 : Table := ⟨t.headers.map (fun h => ⟨normalizeLabel h.label, h.numeric⟩), t.rows⟩
  let maskIndex : List AxisLabel := (List.range t1.headers.length).map Sum.inr
  let colLabels : List AxisLabel := t1.headers.map (fun h => Sum.inl h.label)
  if boolMaskAligns colLabels maskIndex then
    Except.ok (dropByMask (t1.headers.map (fun h => !(strStarts h.label "unnamed"))) t1)
  else Except.error ()

/-- `_remove_empty_rows_columns`: drop all-missing columns, then
all-blank columns, then all-missing rows, then all-blank rows — in that
order, so the row tests see the column-pruned table. -/
def remove_empty_rows_columns (t : Table) : Table :=
  let m1 := (List.range t.headers.length).map (fun j => !(colAllMissingB t j))
  let t1 := dropByMask m1 t
  let m2 := (List.range t1.headers.length).map (fun j => !(colAllBlankB t1 j))
  let t2 := dropByMask m2 t1
  let t3 : Table := ⟨t2.headers, t2.rows.filter (fun r => !(rowAllMissing r))⟩
  ⟨t3.headers, t3.rows.filter (fun r => !(rowAllBlank r))⟩

/-- `_convert_to_numeric`, per cell: strings are stripped to the numeric
alphabet and parsed (missing on failure or emptiness); numeric cells
round-trip through str() and the parser; str() of a datetime keeps its
dashes and never parses; missing renders as "nan" which strips to "". -/
def convert_to_numeric : Cell → Cell
  | Cell.num q => Cell.num q
  | Cell.dt _ => Cell.missing
  | Cell.missing => Cell.missing
  | Cell.str s =>
    let t := stripNonNumeric s
    if t.isEmpty then Cell.missing
    else
      match parseFloatQ t with
      | some q => Cell.num q
      | none => Cell.missing

/-- `_clean_numeric_columns`: coerce every column whose name matches the
file-type heuristics; the result column has numeric dtype. -/
def clean_numeric_columns (t : Table) (file_type : String) : Table :=
  mapColsIf (fun h => is_numeric_column h.label file_type)
    (fun h => ⟨h.label, true⟩) convert_to_numeric t

/-- last numeric value at a position strictly before i, with its position. -/
def prevNum (col : List Cell) (i : ℕ) : Option (ℕ × ℚ) :=
  (withIdx (col.take i)).foldl
    (fun acc p => match p.2 with | Cell.num q => some (p.1, q) | _ => acc) none

/-- first numeric value at a position strictly after i, with its position. -/
def nextNum (col : List Cell) (i : ℕ) : Option (ℕ × ℚ) :=
  ((withIdx col).drop (i + 1)).findSome?
    (fun p => match p.2 with | Cell.num q => some (p.1, q) | _ => none)

/-- pandas `interpolate(method='linear')` at one missing position:
linear between the surrounding valid values, the last valid value past
the end, and untouched before the first valid value. -/
def interpFill (col : List Cell) (i : ℕ) : Cell :=
  match prevNum col i, nextNum col i with
  | some pv, some nx =>
    Cell.num (pv.2 + (nx.2 - pv.2) * (((i : ℚ) - (pv.1 : ℚ)) / ((nx.1 : ℚ) - (pv.1 : ℚ))))
  | some pv, none => Cell.num pv.2
  | none, _ => Cell.missing

/-- last non-missing cell of a list, if any. -/
def lastValid (l : List Cell) : Option Cell :=
  l.foldl (fun acc c => if c == Cell.missing then acc else some c) none

/-- forward fill at one position. -/
def ffillAt (col : List Cell) (i : ℕ) : Cell :=
  (lastValid (col.take i)).getD Cell.missing

/-- backward fill at one position. -/
def bfillAt (col : List Cell) (i : ℕ) : Cell :=
  ((col.drop (i + 1)).find? (fun c => !(c == Cell.missing))).getD Cell.missing

/-- `_handle_missing_values`: linear interpolation on numeric-dtype
columns, forward/backward fill on all columns, row-wise dropna, or no
change for an unrecognized method. -/
def handle_missing_values (t : Table) (method : String) : Table :=
  if method = "linear_interpolation" then
    ⟨t.headers,
     (withIdx t.rows).map (fun pr =>
       (withIdx pr.2).map (fun pc =>
         if (hdrAt t pc.1).numeric then
           match pc.2 with
           | Cell.missing => interpFill (getCol t pc.1) pr.1
           | c => c
         else pc.2))⟩
  else if method = "forward_fill" then
    ⟨t.headers,
     (withIdx t.rows).map (fun pr =>
       (withIdx pr.2).map (fun pc =>
         match pc.2 with
         | Cell.missing => ffillAt (getCol t pc.1) pr.1
         | c => c))⟩
  else if method = "backward_fill" then
    ⟨t.headers,
     (withIdx t.rows).map (fun pr =>
       (withIdx pr.2).map (fun pc =>
         match pc.2 with
         | Cell.missing => bfillAt (getCol t pc.1) pr.1
         | c => c))⟩
  else if method = "remove" then
    ⟨t.headers, t.rows.filter (fun r => !(r.any (fun c => c == Cell.missing)))⟩
  else t

/-- `drop_duplicates(keep='first')` on full rows. -/
def dedupSeen (seen : List (List Cell)) : List (List Cell) → List (List Cell)
  | [] => []
  | r :: t => if r ∈ seen then dedupSeen seen t else r :: dedupSeen (r :: seen) t

/-- `_remove_duplicates`. -/
def remove_duplicates (t : Table) : Table := ⟨t.headers, dedupSeen [] t.rows⟩

def isTimeLabel (l : String) : Bool :=
  strHasSub (lowerStr l) "time" || strHasSub (lowerStr l) "date"

def isVoltHdr (h : Header) : Bool :=
  (strHasSub (lowerStr h.label) "voltage" || strHasSub (lowerStr h.label) "volt") && h.numeric

def isHarmHdr (h : Header) : Bool := strHasSub (lowerStr h.label) "harmonic" && h.numeric

def isPhaseHdr (h : Header) : Bool :=
  (strHasSub (lowerStr h.label) "phase" || strHasSub (lowerStr h.label) "angle") && h.numeric

def isAmpHdr (h : Header) : Bool :=
  (strHasSub (lowerStr h.label) "amplitude" || strHasSub (lowerStr h.label) "magnitude") && h.numeric

def cellGe0 (c : Cell) : Bool := match c with | Cell.num q => decide (0 ≤ q) | _ => false

def cellGt0 (c : Cell) : Bool := match c with | Cell.num q => decide (0 < q) | _ => false

/-- `pd.to_datetime(..., errors='coerce')` on a numeric-dtype column:
numbers become epoch datetimes monotonically; everything else is NaT. -/
def toDtCell : Cell → Cell
  | Cell.num q => Cell.dt q
  | Cell.dt q => Cell.dt q
  | _ => Cell.missing

/-- replace column j by its datetime parse; the column dtype becomes
datetime64, which is not numeric. -/
def toDatetimeCol (t : Table) (j : ℕ) : Table :=
  ⟨(withIdx t.headers).map (fun p => if p.1 == j then ⟨p.2.label, false⟩ else p.2),
   t.rows.map (fun r => r.set j (toDtCell (r.getD j Cell.missing)))⟩

/-- sort key order on cells for `sort_values`: valid datetimes ascending,
missing (NaT) last; ties keep their original order (stable). -/
def cellLeB (a b : Cell) : Bool :=
  match a, b with
  | Cell.dt x, Cell.dt y => decide (x ≤ y)
  | Cell.num x, Cell.num y => decide (x ≤ y)
  | Cell.num x, Cell.dt y => decide (x ≤ y)
  | Cell.dt x, Cell.num y => decide (x ≤ y)
  | Cell.dt _, _ => true
  | Cell.num _, _ => true
  | _, Cell.dt _ => false
  | _, Cell.num _ => false
  | _, _ => true

/-- stable sort of the rows by the cell in column j. -/
def sortRowsBy (t : Table) (j : ℕ) : Table :=
  ⟨t.headers,
   List.insertionSort
     (fun a b => cellLeB (a.getD j Cell.missing) (b.getD j Cell.missing) = true) t.rows⟩

/-- index of the first time/date-labelled column, if any. -/
def findTimeIdx (t : Table) : Option ℕ :=
  ((withIdx t.headers).find? (fun p => isTimeLabel p.2.label)).map (fun p => p.1)

/-- row predicate of the tendencia voltage filter: every numeric
volt-labelled column is non-negative (NaN compares false and is dropped). -/
def voltOK (hs : List Header) (r : List Cell) : Bool :=
  (withIdx hs).all (fun p => !(isVoltHdr p.2) || cellGe0 (r.getD p.1 Cell.missing))

/-- `_clean_tendencia_data`: parse and sort by the first time/date column
when present (the parse of a numeric column cannot fail, so the
try/except never fires), then drop rows with a negative value in any
numeric volt-labelled column. -/
def clean_tendencia_data (t : Table) : Table :=
  let t1 :=
    match findTimeIdx t with
    | none => t
    | some j => sortRowsBy (toDatetimeCol t j) j
  ⟨t1.headers, t1.rows.filter (fun r => voltOK t1.headers r)⟩

/-- row predicate of the harmonic-order filter: every numeric
harmonic-labelled column is strictly positive. -/
def harmOK (hs : List Header) (r : List Cell) : Bool :=
  (withIdx hs).all (fun p => !(isHarmHdr p.2) || cellGt0 (r.getD p.1 Cell.missing))

/-- row predicate of the amplitude filter: every numeric
amplitude/magnitude column is non-negative. -/
def ampOK (hs : List Header) (r : List Cell) : Bool :=
  (withIdx hs).all (fun p => !(isAmpHdr p.2) || cellGe0 (r.getD p.1 Cell.missing))

/-- `.round().astype(int)` on a cell of a harmonic-order column. -/
def roundIntCell : Cell → Cell
  | Cell.num q => Cell.num ((roundHE q : ℤ) : ℚ)
  | c => c

/-- the phase wrap applied to a cell. -/
def wrapCell : Cell → Cell
  | Cell.num q => Cell.num (wrapQ q)
  | c => c

/-- `_clean_armonicos_potencia_data`: keep rows whose numeric harmonic
columns are positive and round those columns to integers, then wrap
numeric phase/angle columns into the -180..180 range. -/
def clean_armonicos_potencia_data (t : Table) : Table :=
  let t1 : Table := ⟨t.headers, t.rows.filter (fun r => harmOK t.headers r)⟩
  let t2 := mapColsIf isHarmHdr (fun h => h) roundIntCell t1
  mapColsIf isPhaseHdr (fun h => h) wrapCell t2

/-- `_clean_armonicos_voltaje_data`: as for power harmonics, with an
additional non-negativity filter on numeric amplitude/magnitude columns
before the phase wrap. -/
def clean_armonicos_voltaje_data (t : Table) : Table :=
  let t1 : Table := ⟨t.headers, t.rows.filter (fun r => harmOK t.headers r)⟩
  let t2 := mapColsIf isHarmHdr (fun h => h) roundIntCell t1
  let t3 : Table := ⟨t2.headers, t2.rows.filter (fun r => ampOK t2.headers r)⟩
  mapColsIf isPhaseHdr (fun h => h) wrapCell t3

/-- `_apply_file_specific_cleaning`. -/
def apply_file_specific_cleaning (t : Table) (file_type : String) : Table :=
  if file_type = "tendencia" then clean_tendencia_data t
  else if file_type = "armonicos_potencia" then clean_armonicos_potencia_data t
  else if file_type = "armonicos_voltaje" then clean_armonicos_voltaje_data t
  else t

/-- `clean_data` with the column-name step modelled faithfully: the
misaligned boolean Series indexer raises for every table that still has
a column, so the pipeline only completes on empty input. -/
def clean_data_strict (df : Option Table) (file_type : String)
    (interpolation_method : String) : Except Unit Table :=
  match df with
  | none => Except.ok emptyTable
  | some t =>
    if t.rows.isEmpty || t.headers.isEmpty then Except.ok emptyTable
    else
      (clean_column_names_strict t).map (fun t1 =>
        apply_file_specific_cleaning
          (remove_duplicates
            (handle_missing_values
              (clean_numeric_columns (remove_empty_rows_columns t1) file_type)
              interpolation_method))
          file_type)

/-! ### ElectricalAnalyzerV2 (src/electrical_analyzer_v2.py)

The analyzer functions below model `_analyze_*` on an in-memory table;
`analyze_file` (spreadsheet reading, outer try/except) is external
collaborator territory and out of scope. -/

/-- `self.flicker_limit`. -/
def flicker_limit : ℚ := 1

/-- `self.thd_limit`. -/
def thd_limit : ℚ := 5

/-- `self.harmonic_total_measurements`: the fixed harmonic denominator. -/
def harmonic_total_measurements : ℕ := 2150

/-- `_extract_phase_from_column`. -/
def extract_phase_from_column (column_name : String) : String :=
  let col_lower := lowerStr column_name
  if strHasSub col_lower "l1" = true then "L1"
  else if strHasSub col_lower "l2" = true then "L2"
  else if strHasSub col_lower "l3" = true then "L3"
  else "GENERAL"

/-- match of `P H (\d+)` at the head of a character list: the literal
marker, a space, then the maximal (greedy) digit run as the group. -/
def phAt : List Char → Option ℕ
  | 'P' :: ' ' :: 'H' :: ' ' :: rest =>
    let ds := rest.takeWhile Char.isDigit
    if ds.isEmpty then none else some (digitsVal ds)
  | _ => none

/-- `re.search(r'P H (\d+)', s)`: leftmost match wins. -/
def phSearch : List Char → Option ℕ
  | [] => none
  | c :: t =>
    match phAt (c :: t) with
    | some n => some n
    | none => phSearch t

/-- `_extract_harmonic_order`: the matched integer, defaulting to 1. -/
def extract_harmonic_order (column_name : String) : ℕ :=
  (phSearch column_name.toList).getD 1

/-- match of `P H \d+ L[123]` at the head of a character list; after the
greedy digit run the regex needs a space, an L and a phase digit (a
shorter digit split would put a digit where the space must be, so
matching the maximal run is equivalent). -/
def phlAt : List Char → Bool
  | 'P' :: ' ' :: 'H' :: ' ' :: rest =>
    let ds := rest.takeWhile Char.isDigit
    let tl := rest.dropWhile Char.isDigit
    !ds.isEmpty &&
      (match tl with
       | ' ' :: 'L' :: c :: _ => c == '1' || c == '2' || c == '3'
       | _ => false)
  | _ => false

/-- `re.search(r'P H \d+ L[123]', s)`. -/
def phlSearch : List Char → Bool
  | [] => false
  | c :: t => phlAt (c :: t) || phlSearch t

/-- does the label contain the power-harmonic column pattern. -/
def hasPHL (s : String) : Bool := phlSearch s.toList

/-- `df[col].dropna()` on a (numeric-dtype) column: the numeric values in
order. -/
def colVals (t : Table) (j : ℕ) : List ℚ :=
  (getCol t j).filterMap (fun c => match c with | Cell.num q => some q | _ => none)

/-- `values.mean()`. -/
def mean (l : List ℚ) : ℚ := l.sum / (l.length : ℚ)

/-- `values.max()` of a non-empty list (0 if empty, never used empty). -/
def listMax : List ℚ → ℚ
  | [] => 0
  | x :: t => t.foldl max x

/-- `values.min()` of a non-empty list (0 if empty, never used empty). -/
def listMin : List ℚ → ℚ
  | [] => 0
  | x :: t => t.foldl min x

/-- the columns whose label contains the target template,
case-insensitively, with their positions (the shared column-resolution
idiom `target_col.lower() in str(col).lower()`). -/
def resolveCols (df : Table) (target : String) : List (ℕ × Header) :=
  (withIdx df.headers).filter (fun p => strHasSub (lowerStr p.2.label) (lowerStr target))

/-- the voltage record dict of `_analyze_voltage_deviations`. -/
structure VoltRec where
  fase : String
  parametro : String
  voltaje_promedio : ℚ
  limite_superior : ℚ
  limite_inferior : ℚ
  violaciones : ℕ
  total_mediciones : ℕ
  porcentaje_desviacion : ℚ
  excede_limite : Bool
deriving DecidableEq

/-- the flicker record dict of `_analyze_flickers`. -/
structure FlickRec where
  fase : String
  parametro : String
  valor_promedio : ℚ
  valor_maximo : ℚ
  limite : ℚ
  violaciones : ℕ
  total_mediciones : ℕ
  porcentaje_flicker : ℚ
  excede_limite : Bool
deriving DecidableEq

/-- the THD record dict of `_analyze_thd`. -/
structure ThdRec where
  fase : String
  parametro : String
  thd_promedio : ℚ
  thd_maximo : ℚ
  limite : ℚ
  violaciones : ℕ
  total_mediciones : ℕ
  porcentaje_thd : ℚ
  excede_limite : Bool
deriving DecidableEq

/-- the harmonic record dict of `_analyze_armonicos_complete`. -/
structure HarmRec where
  orden_armonico : ℕ
  fase : String
  parametro : String
  valores_negativos : ℕ
  total_mediciones : ℕ
  porcentaje : ℚ
  valor_promedio : ℚ
  valor_minimo : ℚ
  total_valores_archivo : ℕ
deriving DecidableEq

def voltage_targets : List String :=
  ["U L1 avg. 10 min [V]", "U L2 avg. 10 min [V]", "U L3 avg. 10 min [V]"]

def flicker_targets : List String :=
  ["Pst L1 instant. 10 min", "Pst L2 instant. 10 min", "Pst L3 instant. 10 min"]

def thd_targets : List String :=
  ["THD U L1 avg. 10 min [%]", "THD U L2 avg. 10 min [%]", "THD U L3 avg. 10 min [%]"]

/-- one voltage record: nominal is the channel's own mean, limits are
nominal times 1.08 and 0.92, a violation is strictly outside, stored
values are display-rounded exactly as in the source. -/
def mkVoltRec (label : String) (vals : List ℚ) (total : ℕ) : VoltRec :=
  let nominal := mean vals
  let upper := nominal * 1.08
  let lower := nominal * 0.92
  let viol := (vals.filter (fun v => decide (upper < v) || decide (v < lower))).length
  { fase := extract_phase_from_column label
    parametro := label
    voltaje_promedio := roundTo 3 nominal
    limite_superior := roundTo 3 upper
    limite_inferior := roundTo 3 lower
    violaciones := viol
    total_mediciones := total
    porcentaje_desviacion := roundTo 6 ((viol : ℚ) / (total : ℚ) * 100)
    excede_limite := decide (0 < viol) }

/-- `_analyze_voltage_deviations`. -/
def analyze_voltage_deviations (df : Table) (total : ℕ) : List VoltRec :=
  voltage_targets.flatMap (fun tgt =>
    (resolveCols df tgt).flatMap (fun p =>
      if p.2.numeric = true then
        if colVals df p.1 = [] then [] else [mkVoltRec p.2.label (colVals df p.1) total]
      else []))

/-- one flicker record. -/
def mkFlickRec (label : String) (vals : List ℚ) (total : ℕ) : FlickRec :=
  let viol := (vals.filter (fun v => decide (flicker_limit < v))).length
  { fase := extract_phase_from_column label
    parametro := label
    valor_promedio := roundTo 6 (mean vals)
    valor_maximo := roundTo 6 (listMax vals)
    limite := flicker_limit
    violaciones := viol
    total_mediciones := total
    porcentaje_flicker := roundTo 6 ((viol : ℚ) / (total : ℚ) * 100)
    excede_limite := decide (0 < viol) }

/-- `_analyze_flickers`. -/
def analyze_flickers (df : Table) (total : ℕ) : List FlickRec :=
  flicker_targets.flatMap (fun tgt =>
    (resolveCols df tgt).flatMap (fun p =>
      if p.2.numeric = true then
        if colVals df p.1 = [] then [] else [mkFlickRec p.2.label (colVals df p.1) total]
      else []))

/-- one THD record. -/
def mkThdRec (label : String) (vals : List ℚ) (total : ℕ) : ThdRec :=
  let viol := (vals.filter (fun v => decide (thd_limit < v))).length
  { fase := extract_phase_from_column label
    parametro := label
    thd_promedio := roundTo 6 (mean vals)
    thd_maximo := roundTo 6 (listMax vals)
    limite := thd_limit
    violaciones := viol
    total_mediciones := total
    porcentaje_thd := roundTo 6 ((viol : ℚ) / (total : ℚ) * 100)
    excede_limite := decide (0 < viol) }

/-- `_analyze_thd`. -/
def analyze_thd (df : Table) (total : ℕ) : List ThdRec :=
  thd_targets.flatMap (fun tgt =>
    (resolveCols df tgt).flatMap (fun p =>
      if p.2.numeric = true then
        if colVals df p.1 = [] then [] else [mkThdRec p.2.label (colVals df p.1) total]
      else []))

/-- the three record collections of `_analyze_tendencia_complete`. -/
structure TendenciaResult where
  voltage_deviations : List VoltRec
  flickers : List FlickRec
  thd_analysis : List ThdRec
deriving DecidableEq

/-- `_analyze_tendencia_complete`: every category uses the table's row
count as denominator. -/
def analyze_tendencia_complete (df : Table) : TendenciaResult :=
  let total := df.rows.length
  ⟨analyze_voltage_deviations df total, analyze_flickers df total, analyze_thd df total⟩

/-- one harmonic record: violations are the strictly negative values,
the denominator is the fixed constant, and the channel's own value
count is kept separately. -/
def mkHarmRec (label : String) (vals : List ℚ) : HarmRec :=
  let neg := (vals.filter (fun v => decide (v < 0))).length
  { orden_armonico := extract_harmonic_order label
    fase := extract_phase_from_column label
    parametro := label
    valores_negativos := neg
    total_mediciones := harmonic_total_measurements
    porcentaje := roundTo 8 ((neg : ℚ) / (harmonic_total_measurements : ℚ) * 100)
    valor_promedio := roundTo 6 (mean vals)
    valor_minimo := roundTo 6 (listMin vals)
    total_valores_archivo := vals.length }

/-- `_analyze_armonicos_complete`: columns matching the power-harmonic
pattern, excluding the extracted order 1, each yielding a record when
numeric and non-empty. -/
def analyze_armonicos_complete (df : Table) : List HarmRec :=
  let hcols := (withIdx df.headers).filter
    (fun p => hasPHL p.2.label && decide (extract_harmonic_order p.2.label ≠ 1))
  hcols.flatMap (fun p =>
    if p.2.numeric = true then
      if colVals df p.1 = [] then [] else [mkHarmRec p.2.label (colVals df p.1)]
    else [])

/-! ### Auxiliary definitions used by the theorems -/

/-- decidable atom: the cell holds a number. -/
def cellIsNum : Cell → Bool
  | Cell.num _ => true
  | _ => false

/-- the columns of a table, as lists of cells. -/
def colsList (t : Table) : List (List Cell) :=
  (List.range t.headers.length).map (fun j => getCol t j)

/-- comparison definition for the corrected claim C9: columns are judged
(and dropped) on the original table, and rows are then judged on their
cells in the surviving columns only. -/
def pruneSpec (t : Table) : Table :=
  let keepC := (List.range t.headers.length).map
    (fun j => !(colAllMissingB t j) && !(colAllBlankB t j))
  ⟨applyMask keepC t.headers,
   (t.rows.map (applyMask keepC)).filter
     (fun r => !(rowAllMissing r) && !(rowAllBlank r))⟩

/-- C9 counterexample: the second column is all blank strings (dropped),
and the first row is non-empty only through that column. -/
def ce9 : Table :=
  ⟨[⟨"c1", false⟩, ⟨"c2", false⟩],
   [[Cell.missing, Cell.str ""], [Cell.num 1, Cell.str ""]]⟩

/-- C5 failing input: any table with at least one column. -/
def ce5 : Table := ⟨[⟨"voltage", false⟩], [[Cell.str "1"]]⟩

/-- a one-channel voltage table used by the witnesses. -/
def dfVolt : Table :=
  ⟨[⟨"U L1 avg. 10 min [V]", true⟩], [[Cell.num 92], [Cell.num 100], [Cell.num 108]]⟩

/-- the voltage record clean of violations that `dfVolt` produces. -/
def recVolt : VoltRec :=
  ⟨"L1", "U L1 avg. 10 min [V]", 100, 108, 92, 0, 3, 0, false⟩

/-- a one-channel power-harmonic table of order 3. -/
def dfHarm3 : Table := ⟨[⟨"P H 3 L1", true⟩], [[Cell.num 5]]⟩

/-- the harmonic record `dfHarm3` produces. -/
def recHarm3 : HarmRec := ⟨3, "L1", "P H 3 L1", 0, 2150, 0, 5, 5, 1⟩

/-- C7 counterexample input: an explicit zero harmonic order. -/
def dfHarm0 : Table := ⟨[⟨"P H 0 L1", true⟩], [[Cell.num 5]]⟩

/-- the harmonic record `dfHarm0` produces: its order is 0. -/
def recHarm0 : HarmRec := ⟨0, "L1", "P H 0 L1", 0, 2150, 0, 5, 5, 1⟩

/-- a table with one numeric phase column, out of range. -/
def dfPhase : Table := ⟨[⟨"phase_a", true⟩], [[Cell.num 200]]⟩

/-- well-typedness: numeric-dtype columns hold only numbers or missing
values (what a float64/int64 pandas column can hold). -/
def typedTableP (t : Table) : Prop :=
  ∀ p ∈ withIdx t.headers, p.2.numeric = true →
    ∀ c ∈ getCol t p.1, c = Cell.missing ∨ cellIsNum c = true

/-- decidable form of `typedTableP`. -/
def typedTableB (t : Table) : Bool :=
  (withIdx t.headers).all (fun p => !p.2.numeric ||
    (getCol t p.1).all (fun c => c == Cell.missing || cellIsNum c))

/-- every number in a numeric phase/angle column lies in [-180, 180). -/
def phaseRangeP (t : Table) : Prop :=
  ∀ p ∈ withIdx t.headers, isPhaseHdr p.2 = true →
    ∀ c ∈ getCol t p.1, ∀ q : ℚ, c = Cell.num q → -180 ≤ q ∧ q < 180

/-! ### Generic list lemmas -/

theorem map_eq_self {α : Type} {l : List α} {f : α → α} (h : ∀ a ∈ l, f a = a) :
    l.map f = l := by
  induction l with
  | nil => rfl
  | cons a t ih =>
    simp only [List.map_cons]
    rw [h a (List.mem_cons_self a t), ih (fun x hx => h x (List.mem_cons_of_mem a hx))]

theorem map_congr_mem {α β : Type} {l : List α} {f g : α → β}
    (h : ∀ a ∈ l, f a = g a) : l.map f = l.map g := by
  induction l with
  | nil => rfl
  | cons a t ih =>
    simp only [List.map_cons]
    rw [h a (List.mem_cons_self a t), ih (fun x hx => h x (List.mem_cons_of_mem a hx))]

theorem filter_self {α : Type} {l : List α} {p : α → Bool} (h : ∀ a ∈ l, p a = true) :
    l.filter p = l := by
  induction l with
  | nil => rfl
  | cons a t ih =>
    rw [List.filter_cons, if_pos (h a (List.mem_cons_self a t)),
      ih (fun x hx => h x (List.mem_cons_of_mem a hx))]

theorem filter_comm_and {α : Type} (l : List α) (p q : α → Bool) :
    (l.filter p).filter q = l.filter (fun a => p a && q a) := by
  induction l with
  | nil => rfl
  | cons a t ih =>
    by_cases hp : p a = true
    · by_cases hq : q a = true
      · simp [List.filter_cons, hp, hq, ih]
      · simp [List.filter_cons, hp, Bool.eq_false_iff.mpr hq, ih]
    · simp [List.filter_cons, Bool.eq_false_iff.mpr hp, ih]

theorem getD_mem_of_lt {α : Type} (l : List α) (j : ℕ) (d : α) (h : j < l.length) :
    l.getD j d ∈ l := by
  rw [List.getD_eq_getElem l d h]
  exact List.getElem_mem h

theorem withIdxFrom_length {α : Type} (l : List α) (n : ℕ) :
    (withIdxFrom n l).length = l.length := by
  induction l generalizing n with
  | nil => rfl
  | cons a t ih => simp [withIdxFrom, ih]

theorem withIdx_length {α : Type} (l : List α) : (withIdx l).length = l.length :=
  withIdxFrom_length l 0

theorem withIdxFrom_map_self {α : Type} (l : List α) (n : ℕ) (g : ℕ × α → α)
    (h : ∀ p ∈ withIdxFrom n l, g p = p.2) :
    (withIdxFrom n l).map g = l := by
  induction l generalizing n with
  | nil => rfl
  | cons a t ih =>
    simp only [withIdxFrom, List.map_cons]
    rw [h (n, a) (List.mem_cons_self _ _),
      ih (n + 1) (fun p hp => h p (List.mem_cons_of_mem _ hp))]

theorem withIdx_map_self {α : Type} (l : List α) (g : ℕ × α → α)
    (h : ∀ p ∈ withIdx l, g p = p.2) : (withIdx l).map g = l :=
  withIdxFrom_map_self l 0 g h

theorem mem_withIdxFrom_getD {α : Type} (l : List α) (n : ℕ) (p : ℕ × α) (d : α)
    (h : p ∈ withIdxFrom n l) :
    n ≤ p.1 ∧ p.1 - n < l.length ∧ p.2 = l.getD (p.1 - n) d := by
  induction l generalizing n with
  | nil => cases h
  | cons a t ih =>
    rcases List.mem_cons.mp h with h0 | h1
    · subst h0
      simp
    · obtain ⟨hle, hlt, hval⟩ := ih (n + 1) h1
      have hlen : (a :: t).length = t.length + 1 := rfl
      refine ⟨by omega, by rw [hlen]; omega, ?_⟩
      have hd : p.1 - n = (p.1 - (n + 1)) + 1 := by omega
      rw [hd, List.getD_cons_succ]
      exact hval

theorem mem_withIdx_getD {α : Type} (l : List α) (p : ℕ × α) (d : α)
    (h : p ∈ withIdx l) : p.1 < l.length ∧ p.2 = l.getD p.1 d := by
  obtain ⟨_, hlt, hval⟩ := mem_withIdxFrom_getD l 0 p d h
  rw [Nat.sub_zero] at hlt hval
  exact ⟨hlt, hval⟩

theorem mem_withIdxFrom_snd {α : Type} (l : List α) (n : ℕ) (p : ℕ × α)
    (h : p ∈ withIdxFrom n l) : p.2 ∈ l := by
  induction l generalizing n with
  | nil => cases h
  | cons a t ih =>
    rcases List.mem_cons.mp h with h0 | h1
    · subst h0; exact List.mem_cons_self _ _
    · exact List.mem_cons_of_mem _ (ih (n + 1) h1)

theorem withIdxFrom_mem {α : Type} (l : List α) (n k : ℕ) (d : α) (h : k < l.length) :
    (n + k, l.getD k d) ∈ withIdxFrom n l := by
  induction l generalizing n k with
  | nil => simp at h
  | cons a t ih =>
    cases k with
    | zero => simp [withIdxFrom]
    | succ k =>
      have := ih (n + 1) k (by simpa using h)
      refine List.mem_cons_of_mem _ ?_
      have harith : n + 1 + k = n + (k + 1) := by omega
      rw [harith] at this
      simpa using this

theorem withIdx_mem {α : Type} (l : List α) (k : ℕ) (d : α) (h : k < l.length) :
    (k, l.getD k d) ∈ withIdx l := by
  have := withIdxFrom_mem l 0 k d h
  simpa using this

theorem withIdxFrom_map_getD {α β : Type} (l : List α) (n j : ℕ) (g : ℕ × α → β)
    (d : α) (dd : β) (h : j < l.length) :
    ((withIdxFrom n l).map g).getD j dd = g (n + j, l.getD j d) := by
  induction l generalizing n j with
  | nil => simp at h
  | cons a t ih =>
    cases j with
    | zero => simp [withIdxFrom]
    | succ j =>
      have := ih (n + 1) j (by simpa using h)
      simp only [withIdxFrom, List.map_cons, List.getD_cons_succ]
      rw [this]
      have harith : n + 1 + j = n + (j + 1) := by omega
      rw [harith]

theorem withIdx_map_getD {α β : Type} (l : List α) (j : ℕ) (g : ℕ × α → β)
    (d : α) (dd : β) (h : j < l.length) :
    ((withIdx l).map g).getD j dd = g (j, l.getD j d) := by
  have := withIdxFrom_map_getD l 0 j g d dd h
  rwa [Nat.zero_add] at this

theorem applyMask_self {α : Type} (m : List Bool) (l : List α)
    (hlen : m.length = l.length) (h : ∀ b ∈ m, b = true) : applyMask m l = l := by
  induction m generalizing l with
  | nil => cases l with
    | nil => rfl
    | cons a t => simp at hlen
  | cons b mt ih =>
    cases l with
    | nil => simp at hlen
    | cons a t =>
      have hb := h b (List.mem_cons_self _ _)
      subst hb
      simp only [applyMask, if_pos]
      rw [ih t (by simpa using hlen) (fun x hx => h x (List.mem_cons_of_mem _ hx))]

theorem applyMask_length_congr {α β : Type} (m : List Bool) (l1 : List α) (l2 : List β)
    (h : l1.length = l2.length) : (applyMask m l1).length = (applyMask m l2).length := by
  induction m generalizing l1 l2 with
  | nil => cases l1 <;> cases l2 <;> simp_all [applyMask]
  | cons b mt ih =>
    cases l1 with
    | nil => cases l2 with
      | nil => rfl
      | cons c t2 => simp at h
    | cons a t1 =>
      cases l2 with
      | nil => simp at h
      | cons c t2 =>
        have ht := ih t1 t2 (by simpa using h)
        cases b <;> simp [applyMask, ht]

theorem applyMask_true_cons {α : Type} (mt : List Bool) (a : α) (t : List α) :
    applyMask (true :: mt) (a :: t) = a :: applyMask mt t := rfl

theorem applyMask_false_cons {α : Type} (mt : List Bool) (a : α) (t : List α) :
    applyMask (false :: mt) (a :: t) = applyMask mt t := rfl

theorem applyMask_getD {α : Type} (m : List Bool) (l : List α) (j : ℕ) (d : α)
    (h : j < (applyMask m l).length) :
    (applyMask m l).getD j d = l.getD (nthTrue m j) d := by
  induction m generalizing l j with
  | nil => cases l <;> simp [applyMask] at h
  | cons b mt ih =>
    cases l with
    | nil => simp [applyMask] at h
    | cons a t =>
      cases b with
      | true =>
        cases j with
        | zero => rfl
        | succ j =>
          rw [applyMask_true_cons] at h
          have h' : j < (applyMask mt t).length := by
            rw [List.length_cons] at h
            omega
          rw [applyMask_true_cons, List.getD_cons_succ]
          have e2 : nthTrue (true :: mt) (j + 1) = nthTrue mt j + 1 := rfl
          rw [e2, List.getD_cons_succ]
          exact ih t j h'
      | false =>
        rw [applyMask_false_cons] at h
        rw [applyMask_false_cons]
        have e2 : nthTrue (false :: mt) j = nthTrue mt j + 1 := rfl
        rw [e2, List.getD_cons_succ]
        exact ih t j h

theorem nthTrue_lt {α : Type} (m : List Bool) (l : List α) (j : ℕ)
    (h : j < (applyMask m l).length) : nthTrue m j < l.length := by
  induction m generalizing l j with
  | nil => cases l <;> simp [applyMask] at h
  | cons b mt ih =>
    cases l with
    | nil => simp [applyMask] at h
    | cons a t =>
      cases b with
      | true =>
        cases j with
        | zero =>
          have e2 : nthTrue (true :: mt) 0 = 0 := rfl
          rw [e2, List.length_cons]
          omega
        | succ j =>
          rw [applyMask_true_cons, List.length_cons] at h
          have h' : j < (applyMask mt t).length := by omega
          have e2 : nthTrue (true :: mt) (j + 1) = nthTrue mt j + 1 := rfl
          rw [e2, List.length_cons]
          have := ih t j h'
          omega
      | false =>
        rw [applyMask_false_cons] at h
        have e2 : nthTrue (false :: mt) j = nthTrue mt j + 1 := rfl
        rw [e2, List.length_cons]
        have := ih t j h
        omega

theorem applyMask_map {α β : Type} (m : List Bool) (l : List α) (f : α → β) :
    (applyMask m l).map f = applyMask m (l.map f) := by
  induction m generalizing l with
  | nil => cases l <;> simp [applyMask]
  | cons b mt ih =>
    cases l with
    | nil => simp [applyMask]
    | cons a t => cases b <;> simp [applyMask, ih]

theorem applyMask_twice {α : Type} (m mB : List Bool) (l : List α)
    (hlen : m.length = mB.length) :
    applyMask (applyMask m mB) (applyMask m l) =
      applyMask (List.zipWith (fun a b => a && b) m mB) l := by
  induction m generalizing mB l with
  | nil =>
    cases mB with
    | nil => cases l <;> simp [applyMask]
    | cons b t => simp at hlen
  | cons b mt ih =>
    cases mB with
    | nil => simp at hlen
    | cons c mbt =>
      have hl : mt.length = mbt.length := by simpa using hlen
      cases l with
      | nil => cases b <;> cases c <;> simp [applyMask]
      | cons a t =>
        cases b with
        | true => cases c <;> simp [applyMask, ih mbt t hl]
        | false => simp [applyMask, ih mbt t hl]

theorem zipWith_map_same {α β γ δ : Type} (r : List γ) (f1 : γ → α) (f2 : γ → β)
    (g : α → β → δ) :
    List.zipWith g (r.map f1) (r.map f2) = r.map (fun x => g (f1 x) (f2 x)) := by
  induction r with
  | nil => rfl
  | cons a t ih => simp [ih]

theorem range_map_getD {β γ : Type} (l : List β) (g : β → γ) (d : β) :
    (List.range l.length).map (fun j => g (l.getD j d)) = l.map g := by
  induction l with
  | nil => rfl
  | cons a t ih =>
    have h1 : List.range (a :: t).length = 0 :: (List.range t.length).map Nat.succ := by
      rw [List.length_cons, List.range_succ_eq_map]
    rw [h1, List.map_cons, List.map_map]
    have h2 : ((fun j => g ((a :: t).getD j d)) ∘ Nat.succ) = (fun j => g (t.getD j d)) := by
      funext j
      simp only [Function.comp_apply, List.getD_cons_succ]
    rw [h2, ih]
    rfl

theorem dedupSeen_eq_self (l : List (List Cell)) (seen : List (List Cell))
    (hnd : l.Nodup) (hs : ∀ r ∈ l, r ∉ seen) : dedupSeen seen l = l := by
  induction l generalizing seen with
  | nil => rfl
  | cons a t ih =>
    have ha : a ∉ seen := hs a (List.mem_cons_self _ _)
    simp only [dedupSeen, if_neg ha]
    refine congrArg (fun x => a :: x) (ih (a :: seen) (List.Nodup.of_cons hnd) ?_)
    intro r hr
    simp only [List.mem_cons]
    push_neg
    refine ⟨?_, hs r (List.mem_cons_of_mem _ hr)⟩
    intro hra
    subst hra
    exact (List.nodup_cons.mp hnd).1 hr

theorem wrapQ_bounds (q : ℚ) : -180 ≤ wrapQ q ∧ wrapQ q < 180 := by
  have hm : pymod (q + 180) 360 = 360 * Int.fract ((q + 180) / 360) := by
    rw [pymod, Int.fract]
    ring
  have h0 : (0 : ℚ) ≤ Int.fract ((q + 180) / 360) := Int.fract_nonneg _
  have h1 : Int.fract ((q + 180) / 360) < 1 := Int.fract_lt_one _
  constructor
  · rw [wrapQ, hm]; nlinarith
  · rw [wrapQ, hm]; nlinarith

/-! ### Table-level lemmas -/

theorem rect_row_len {t : Table} (h : rect t = true) {r : List Cell} (hr : r ∈ t.rows) :
    r.length = t.headers.length := by
  have := List.all_eq_true.mp h r hr
  simpa using this

theorem mem_getCol_of_mem {t : Table} {r : List Cell} (hr : r ∈ t.rows) (j : ℕ) :
    r.getD j Cell.missing ∈ getCol t j := List.mem_map_of_mem _ hr

theorem mem_withIdx_of_mem {α : Type} {l : List α} {a : α} (h : a ∈ l) :
    ∃ j, (j, a) ∈ withIdx l := by
  rcases List.mem_iff_getElem.mp h with ⟨i, hi, hEq⟩
  have hgd : l.getD i a = a := by rw [List.getD_eq_getElem l a hi, hEq]
  refine ⟨i, ?_⟩
  have := withIdx_mem l i a hi
  rwa [hgd] at this

theorem rect_filter {t : Table} (p : List Cell → Bool) (h : rect t = true) :
    rect (⟨t.headers, t.rows.filter p⟩ : Table) = true := by
  refine List.all_eq_true.mpr (fun r hr => ?_)
  exact List.all_eq_true.mp h r (List.mem_filter.mp hr).1

theorem mem_getCol_filter {t : Table} {p : List Cell → Bool} {j : ℕ} {c : Cell}
    (h : c ∈ getCol (⟨t.headers, t.rows.filter p⟩ : Table) j) : c ∈ getCol t j := by
  rcases List.mem_map.mp h with ⟨r, hr, hEq⟩
  rw [← hEq]
  exact mem_getCol_of_mem (List.mem_filter.mp hr).1 j

theorem mapColsIf_headers (cond : Header → Bool) (fh : Header → Header) (f : Cell → Cell)
    (t : Table) :
    (mapColsIf cond fh f t).headers = t.headers.map (fun h => if cond h then fh h else h) :=
  rfl

theorem mapColsIf_id_headers (cond : Header → Bool) (f : Cell → Cell) (t : Table) :
    (mapColsIf cond (fun h => h) f t).headers = t.headers := by
  rw [mapColsIf_headers]
  exact map_eq_self (fun h _ => ite_self h)

theorem rect_mapColsIf (cond : Header → Bool) (fh : Header → Header) (f : Cell → Cell)
    {t : Table} (h : rect t = true) : rect (mapColsIf cond fh f t) = true := by
  refine List.all_eq_true.mpr (fun r hr => ?_)
  rcases List.mem_map.mp hr with ⟨r0, hr0, hEq⟩
  have hlen : r.length = r0.length := by
    rw [← hEq, List.length_map, withIdx_length]
  have := rect_row_len h hr0
  simp only [mapColsIf, List.length_map]
  rw [hlen, this]
  exact beq_self_eq_true _

theorem mapColsIf_eq_self (cond : Header → Bool) (fh : Header → Header) (f : Cell → Cell)
    (t : Table) (hrect : rect t = true)
    (hh : ∀ h ∈ t.headers, cond h = true → fh h = h)
    (hc : ∀ p ∈ withIdx t.headers, cond p.2 = true → ∀ c ∈ getCol t p.1, f c = c) :
    mapColsIf cond fh f t = t := by
  have hH : t.headers.map (fun h => if cond h then fh h else h) = t.headers := by
    refine map_eq_self (fun h hm => ?_)
    by_cases hcnd : cond h = true
    · rw [if_pos hcnd]; exact hh h hm hcnd
    · rw [if_neg hcnd]
  have hR : t.rows.map
      (fun r => (withIdx r).map (fun p => if cond (hdrAt t p.1) then f p.2 else p.2)) =
      t.rows := by
    refine map_eq_self (fun r hr => ?_)
    refine withIdx_map_self r _ (fun p hp => ?_)
    by_cases hcnd : cond (hdrAt t p.1) = true
    · rw [if_pos hcnd]
      obtain ⟨hlt, hval⟩ := mem_withIdx_getD r p Cell.missing hp
      have hlt2 : p.1 < t.headers.length := by rw [← rect_row_len hrect hr]; exact hlt
      have hmemh : (p.1, hdrAt t p.1) ∈ withIdx t.headers :=
        withIdx_mem t.headers p.1 dummyHeader hlt2
      have hcell : p.2 ∈ getCol t p.1 := by
        rw [hval]; exact mem_getCol_of_mem hr p.1
      exact hc (p.1, hdrAt t p.1) hmemh hcnd p.2 hcell
    · rw [if_neg hcnd]
  show (⟨t.headers.map _, t.rows.map _⟩ : Table) = t
  rw [hH, hR]

theorem mapColsIf_getCol (cond : Header → Bool) (fh : Header → Header) (f : Cell → Cell)
    (t : Table) (j : ℕ) (hrect : rect t = true) (hj : j < t.headers.length) :
    getCol (mapColsIf cond fh f t) j =
      if cond (hdrAt t j) = true then (getCol t j).map f else getCol t j := by
  have hrow : ∀ r ∈ t.rows,
      ((withIdx r).map (fun p => if cond (hdrAt t p.1) then f p.2 else p.2)).getD j
          Cell.missing =
        if cond (hdrAt t j) = true then f (r.getD j Cell.missing)
        else r.getD j Cell.missing := by
    intro r hr
    have hjr : j < r.length := by rw [rect_row_len hrect hr]; exact hj
    exact withIdx_map_getD r j
      (fun p => if cond (hdrAt t p.1) then f p.2 else p.2) Cell.missing Cell.missing hjr
  have h0 : getCol (mapColsIf cond fh f t) j =
      t.rows.map (fun r =>
        ((withIdx r).map (fun p => if cond (hdrAt t p.1) then f p.2 else p.2)).getD j
          Cell.missing) := by
    show (t.rows.map _).map _ = _
    rw [List.map_map]
    rfl
  rw [h0]
  by_cases hcnd : cond (hdrAt t j) = true
  · rw [if_pos hcnd]
    have h1 : (getCol t j).map f =
        t.rows.map (fun r => f (r.getD j Cell.missing)) := by
      show (t.rows.map _).map f = _
      rw [List.map_map]
      rfl
    rw [h1]
    refine map_congr_mem (fun r hr => ?_)
    rw [hrow r hr, if_pos hcnd]
  · rw [if_neg hcnd]
    refine map_congr_mem (fun r hr => ?_)
    rw [hrow r hr, if_neg hcnd]

theorem dropByMask_true_self (t : Table) (m : List Bool) (hrect : rect t = true)
    (hlen : m.length = t.headers.length) (hall : ∀ b ∈ m, b = true) :
    dropByMask m t = t := by
  show (⟨applyMask m t.headers, t.rows.map (applyMask m)⟩ : Table) = t
  rw [applyMask_self m t.headers hlen hall]
  rw [map_eq_self (fun r hr => applyMask_self m r
    (by rw [hlen, rect_row_len hrect hr]) hall)]

/-! ### Step-identity lemmas for the cleaning pipeline -/

theorem remove_empty_eq_self (t : Table) (hrect : rect t = true)
    (hc : ∀ j, j < t.headers.length → colAllMissingB t j = false ∧ colAllBlankB t j = false)
    (hr : ∀ r ∈ t.rows, rowAllMissing r = false ∧ rowAllBlank r = false) :
    remove_empty_rows_columns t = t := by
  have hmask : ∀ g : ℕ → Bool, (∀ j, j < t.headers.length → g j = true) →
      dropByMask ((List.range t.headers.length).map g) t = t := by
    intro g hg
    refine dropByMask_true_self t _ hrect (by simp) (fun b hb => ?_)
    rcases List.mem_map.mp hb with ⟨j, hj, hEq⟩
    rw [← hEq]
    exact hg j (List.mem_range.mp hj)
  have h1 : dropByMask ((List.range t.headers.length).map
      (fun j => !(colAllMissingB t j))) t = t := by
    refine hmask _ (fun j hj => ?_)
    rw [(hc j hj).1]
    rfl
  have h2 : dropByMask ((List.range t.headers.length).map
      (fun j => !(colAllBlankB t j))) t = t := by
    refine hmask _ (fun j hj => ?_)
    rw [(hc j hj).2]
    rfl
  simp only [remove_empty_rows_columns, h1, h2]
  have h3 : t.rows.filter (fun r => !(rowAllMissing r)) = t.rows :=
    filter_self (fun r hrm => by rw [(hr r hrm).1]; rfl)
  simp only [h3]
  have h4 : t.rows.filter (fun r => !(rowAllBlank r)) = t.rows :=
    filter_self (fun r hrm => by rw [(hr r hrm).2]; rfl)
  simp only [h4]

theorem clean_numeric_columns_eq_self (t : Table) (file_type : String)
    (hrect : rect t = true)
    (hm : ∀ p ∈ withIdx t.headers, is_numeric_column p.2.label file_type = true →
      p.2.numeric = true ∧ ∀ c ∈ getCol t p.1, cellIsNum c = true) :
    clean_numeric_columns t file_type = t := by
  refine mapColsIf_eq_self _ _ _ t hrect (fun h hmem hcnd => ?_) (fun p hp hcnd c hcell => ?_)
  · rcases mem_withIdx_of_mem hmem with ⟨j, hj⟩
    have := (hm (j, h) hj hcnd).1
    cases h
    simp only at this
    rw [this]
  · have := (hm p hp hcnd).2 c hcell
    cases c with
    | num q => rfl
    | str s => simp [cellIsNum] at this
    | dt q => simp [cellIsNum] at this
    | missing => simp [cellIsNum] at this

theorem handle_missing_eq_self (t : Table) (method : String)
    (hnm : ∀ r ∈ t.rows, ∀ c ∈ r, ¬ c = Cell.missing) :
    handle_missing_values t method = t := by
  unfold handle_missing_values
  by_cases h1 : method = "linear_interpolation"
  · rw [if_pos h1]
    show (⟨t.headers, _⟩ : Table) = t
    have hrw : (withIdx t.rows).map (fun pr => (withIdx pr.2).map (fun pc =>
        if (hdrAt t pc.1).numeric = true then
          match pc.2 with
          | Cell.missing => interpFill (getCol t pc.1) pr.1
          | c => c
        else pc.2)) = t.rows := by
      refine withIdx_map_self t.rows _ (fun pr hpr => ?_)
      have hrmem : pr.2 ∈ t.rows := mem_withIdxFrom_snd t.rows 0 pr hpr
      refine withIdx_map_self pr.2 _ (fun pc hpc => ?_)
      have hcmem : pc.2 ∈ pr.2 := mem_withIdxFrom_snd pr.2 0 pc hpc
      have hcne := hnm pr.2 hrmem pc.2 hcmem
      by_cases hnumr : (hdrAt t pc.1).numeric = true
      · rw [if_pos hnumr]
        cases hval : pc.2 with
        | num q => rfl
        | str s => rfl
        | dt q => rfl
        | missing => exact absurd hval hcne
      · rw [if_neg hnumr]
    rw [hrw]
  · rw [if_neg h1]
    by_cases h2 : method = "forward_fill"
    · rw [if_pos h2]
      show (⟨t.headers, _⟩ : Table) = t
      have hrw : (withIdx t.rows).map (fun pr => (withIdx pr.2).map (fun pc =>
          match pc.2 with
          | Cell.missing => ffillAt (getCol t pc.1) pr.1
          | c => c)) = t.rows := by
        refine withIdx_map_self t.rows _ (fun pr hpr => ?_)
        have hrmem : pr.2 ∈ t.rows := mem_withIdxFrom_snd t.rows 0 pr hpr
        refine withIdx_map_self pr.2 _ (fun pc hpc => ?_)
        have hcmem : pc.2 ∈ pr.2 := mem_withIdxFrom_snd pr.2 0 pc hpc
        have hcne := hnm pr.2 hrmem pc.2 hcmem
        cases hval : pc.2 with
        | num q => rfl
        | str s => rfl
        | dt q => rfl
        | missing => exact absurd hval hcne
      rw [hrw]
    · rw [if_neg h2]
      by_cases h3 : method = "backward_fill"
      · rw [if_pos h3]
        show (⟨t.headers, _⟩ : Table) = t
        have hrw : (withIdx t.rows).map (fun pr => (withIdx pr.2).map (fun pc =>
            match pc.2 with
            | Cell.missing => bfillAt (getCol t pc.1) pr.1
            | c => c)) = t.rows := by
          refine withIdx_map_self t.rows _ (fun pr hpr => ?_)
          have hrmem : pr.2 ∈ t.rows := mem_withIdxFrom_snd t.rows 0 pr hpr
          refine withIdx_map_self pr.2 _ (fun pc hpc => ?_)
          have hcmem : pc.2 ∈ pr.2 := mem_withIdxFrom_snd pr.2 0 pc hpc
          have hcne := hnm pr.2 hrmem pc.2 hcmem
          cases hval : pc.2 with
          | num q => rfl
          | str s => rfl
          | dt q => rfl
          | missing => exact absurd hval hcne
        rw [hrw]
      · rw [if_neg h3]
        by_cases h4 : method = "remove"
        · rw [if_pos h4]
          show (⟨t.headers, _⟩ : Table) = t
          have hrw : t.rows.filter (fun r => !(r.any (fun c => c == Cell.missing))) =
              t.rows := by
            refine filter_self (fun r hrm => ?_)
            have : r.any (fun c => c == Cell.missing) = false := by
              rw [List.any_eq_false]
              intro c hc
              simpa using hnm r hrm c hc
            rw [this]
            rfl
          rw [hrw]
        · rw [if_neg h4]

theorem remove_duplicates_eq_self (t : Table) (hnd : t.rows.Nodup) :
    remove_duplicates t = t := by
  show (⟨t.headers, dedupSeen [] t.rows⟩ : Table) = t
  rw [dedupSeen_eq_self t.rows [] hnd (fun r _ => List.not_mem_nil r)]

theorem clean_tendencia_eq_self (t : Table) (hrect : rect t = true)
    (htime : ∀ h ∈ t.headers, isTimeLabel h.label = false)
    (hvolt : ∀ p ∈ withIdx t.headers, isVoltHdr p.2 = true →
      ∀ c ∈ getCol t p.1, cellGe0 c = true) :
    clean_tendencia_data t = t := by
  have hfind : findTimeIdx t = none := by
    unfold findTimeIdx
    rw [List.find?_eq_none.mpr (fun p hp => ?_)]
    · rfl
    · have := htime p.2 (mem_withIdxFrom_snd t.headers 0 p hp)
      simp [this]
  unfold clean_tendencia_data
  rw [hfind]
  show (⟨t.headers, t.rows.filter (fun r => voltOK t.headers r)⟩ : Table) = t
  have : t.rows.filter (fun r => voltOK t.headers r) = t.rows := by
    refine filter_self (fun r hrm => ?_)
    refine List.all_eq_true.mpr (fun p hp => ?_)
    by_cases hv : isVoltHdr p.2 = true
    · have hcell : r.getD p.1 Cell.missing ∈ getCol t p.1 := mem_getCol_of_mem hrm p.1
      have := hvolt p hp hv _ hcell
      rw [this, Bool.or_true]
    · rw [Bool.eq_false_iff.mpr hv]
      rfl
  rw [this]

theorem clean_armonicos_potencia_eq_self (t : Table) (hrect : rect t = true)
    (hharm : ∀ p ∈ withIdx t.headers, isHarmHdr p.2 = true →
      ∀ c ∈ getCol t p.1, cellGt0 c = true ∧ roundIntCell c = c)
    (hphase : ∀ p ∈ withIdx t.headers, isPhaseHdr p.2 = true →
      ∀ c ∈ getCol t p.1, wrapCell c = c) :
    clean_armonicos_potencia_data t = t := by
  have h1 : t.rows.filter (fun r => harmOK t.headers r) = t.rows := by
    refine filter_self (fun r hrm => ?_)
    refine List.all_eq_true.mpr (fun p hp => ?_)
    by_cases hv : isHarmHdr p.2 = true
    · have hcell : r.getD p.1 Cell.missing ∈ getCol t p.1 := mem_getCol_of_mem hrm p.1
      have := (hharm p hp hv _ hcell).1
      rw [this, Bool.or_true]
    · rw [Bool.eq_false_iff.mpr hv]
      rfl
  have e1 : (⟨t.headers, t.rows.filter (fun r => harmOK t.headers r)⟩ : Table) = t := by
    rw [h1]
  have e2 : mapColsIf isHarmHdr (fun h => h) roundIntCell t = t :=
    mapColsIf_eq_self _ _ _ t hrect (fun h _ _ => rfl)
      (fun p hp hcnd c hcell => (hharm p hp hcnd c hcell).2)
  have e3 : mapColsIf isPhaseHdr (fun h => h) wrapCell t = t :=
    mapColsIf_eq_self _ _ _ t hrect (fun h _ _ => rfl)
      (fun p hp hcnd c hcell => hphase p hp hcnd c hcell)
  simp only [clean_armonicos_potencia_data, e1, e2, e3]

theorem clean_armonicos_voltaje_eq_self (t : Table) (hrect : rect t = true)
    (hharm : ∀ p ∈ withIdx t.headers, isHarmHdr p.2 = true →
      ∀ c ∈ getCol t p.1, cellGt0 c = true ∧ roundIntCell c = c)
    (hamp : ∀ p ∈ withIdx t.headers, isAmpHdr p.2 = true →
      ∀ c ∈ getCol t p.1, cellGe0 c = true)
    (hphase : ∀ p ∈ withIdx t.headers, isPhaseHdr p.2 = true →
      ∀ c ∈ getCol t p.1, wrapCell c = c) :
    clean_armonicos_voltaje_data t = t := by
  have h1 : t.rows.filter (fun r => harmOK t.headers r) = t.rows := by
    refine filter_self (fun r hrm => ?_)
    refine List.all_eq_true.mpr (fun p hp => ?_)
    by_cases hv : isHarmHdr p.2 = true
    · have hcell : r.getD p.1 Cell.missing ∈ getCol t p.1 := mem_getCol_of_mem hrm p.1
      have := (hharm p hp hv _ hcell).1
      rw [this, Bool.or_true]
    · rw [Bool.eq_false_iff.mpr hv]
      rfl
  have h2 : t.rows.filter (fun r => ampOK t.headers r) = t.rows := by
    refine filter_self (fun r hrm => ?_)
    refine List.all_eq_true.mpr (fun p hp => ?_)
    by_cases hv : isAmpHdr p.2 = true
    · have hcell : r.getD p.1 Cell.missing ∈ getCol t p.1 := mem_getCol_of_mem hrm p.1
      have := hamp p hp hv _ hcell
      rw [this, Bool.or_true]
    · rw [Bool.eq_false_iff.mpr hv]
      rfl
  have e1 : (⟨t.headers, t.rows.filter (fun r => harmOK t.headers r)⟩ : Table) = t := by
    rw [h1]
  have e1b : (⟨t.headers, t.rows.filter (fun r => ampOK t.headers r)⟩ : Table) = t := by
    rw [h2]
  have e2 : mapColsIf isHarmHdr (fun h => h) roundIntCell t = t :=
    mapColsIf_eq_self _ _ _ t hrect (fun h _ _ => rfl)
      (fun p hp hcnd c hcell => (hharm p hp hcnd c hcell).2)
  have e3 : mapColsIf isPhaseHdr (fun h => h) wrapCell t = t :=
    mapColsIf_eq_self _ _ _ t hrect (fun h _ _ => rfl)
      (fun p hp hcnd c hcell => hphase p hp hcnd c hcell)
  simp only [clean_armonicos_voltaje_data, e1, e2, e1b, e3]

/-! ### Column/row pruning characterization (for C9) -/

theorem range_map_getD_at {γ : Type} (n j : ℕ) (f : ℕ → γ) (d : γ) (h : j < n) :
    ((List.range n).map f).getD j d = f j := by
  have hlen : j < ((List.range n).map f).length := by simp [h]
  rw [List.getD_eq_getElem _ _ hlen, List.getElem_map]
  congr 1
  simp [List.getElem_range]

theorem colsList_length (t : Table) : (colsList t).length = t.headers.length := by
  simp [colsList]

theorem colsList_getD (t : Table) (j : ℕ) (h : j < t.headers.length) :
    (colsList t).getD j [] = getCol t j :=
  range_map_getD_at _ _ _ _ h

theorem colsList_dropByMask (m : List Bool) (t : Table) (hrect : rect t = true)
    (hlen : m.length = t.headers.length) :
    colsList (dropByMask m t) = applyMask m (colsList t) := by
  have hhd : (dropByMask m t).headers = applyMask m t.headers := rfl
  have hL : (colsList (dropByMask m t)).length = (applyMask m (colsList t)).length := by
    rw [colsList_length, hhd]
    exact applyMask_length_congr m t.headers (colsList t) (colsList_length t).symm
  refine List.ext_getElem hL (fun j h1 h2 => ?_)
  have hj1 : j < (dropByMask m t).headers.length := by
    rw [← colsList_length]
    exact h1
  rw [← List.getD_eq_getElem _ ([] : List Cell) h1, ← List.getD_eq_getElem _ ([] : List Cell) h2]
  rw [colsList_getD _ j hj1]
  rw [applyMask_getD m (colsList t) j [] h2]
  have hnt : nthTrue m j < t.headers.length := by
    rw [← colsList_length]
    exact nthTrue_lt m (colsList t) j h2
  rw [colsList_getD t (nthTrue m j) hnt]
  have hgc : getCol (dropByMask m t) j =
      t.rows.map (fun r => (applyMask m r).getD j Cell.missing) := by
    show (t.rows.map _).map _ = _
    rw [List.map_map]
    rfl
  rw [hgc]
  refine map_congr_mem (fun r hr => ?_)
  have hjr : j < (applyMask m r).length := by
    have := applyMask_length_congr m r t.headers (rect_row_len hrect hr)
    rw [this]
    rw [hhd] at hj1
    exact hj1
  exact applyMask_getD m r j Cell.missing hjr

theorem dropByMask_twice (m mB : List Bool) (t : Table) (hlen : m.length = mB.length) :
    dropByMask (applyMask m mB) (dropByMask m t) =
      dropByMask (List.zipWith (fun a b => a && b) m mB) t := by
  show (⟨applyMask (applyMask m mB) (applyMask m t.headers),
      (t.rows.map (applyMask m)).map (applyMask (applyMask m mB))⟩ : Table) = _
  rw [applyMask_twice _ _ _ hlen, List.map_map]
  show (⟨_, _⟩ : Table) = ⟨_, _⟩
  congr 1
  refine map_congr_mem (fun r hr => ?_)
  rw [Function.comp_apply]
  exact applyMask_twice m mB r hlen

theorem remove_empty_characterization_aux (t : Table) (hrect : rect t = true) :
    remove_empty_rows_columns t = pruneSpec t := by
  have hm1len : ((List.range t.headers.length).map
      (fun j => !(colAllMissingB t j))).length = t.headers.length := by simp
  have hmBlen : ((List.range t.headers.length).map
      (fun j => !(colAllBlankB t j))).length = t.headers.length := by simp
  have hcl : colsList (dropByMask ((List.range t.headers.length).map
        (fun j => !(colAllMissingB t j))) t) =
      applyMask ((List.range t.headers.length).map (fun j => !(colAllMissingB t j)))
        (colsList t) :=
    colsList_dropByMask _ t hrect hm1len
  have hreshape : ∀ u : Table, (List.range u.headers.length).map
      (fun j => !(colAllBlankB u j)) = (colsList u).map (fun col => !(col.all blankCell)) := by
    intro u
    have h1 : (List.range u.headers.length).map (fun j => !(colAllBlankB u j)) =
        (List.range (colsList u).length).map
          (fun j => !(((colsList u).getD j []).all blankCell)) := by
      rw [colsList_length]
      refine map_congr_mem (fun j hj => ?_)
      rw [colsList_getD u j (List.mem_range.mp hj)]
      rfl
    rw [h1]
    exact range_map_getD ((colsList u)) (fun col => !(col.all blankCell)) []
  have hm2 : (List.range (dropByMask ((List.range t.headers.length).map
        (fun j => !(colAllMissingB t j))) t).headers.length).map
        (fun j => !(colAllBlankB (dropByMask ((List.range t.headers.length).map
          (fun j => !(colAllMissingB t j))) t) j)) =
      applyMask ((List.range t.headers.length).map (fun j => !(colAllMissingB t j)))
        ((List.range t.headers.length).map (fun j => !(colAllBlankB t j))) := by
    rw [hreshape, hcl, applyMask_map, ← hreshape t]
  have hlen12 : ((List.range t.headers.length).map
        (fun j => !(colAllMissingB t j))).length =
      ((List.range t.headers.length).map (fun j => !(colAllBlankB t j))).length := by
    rw [hm1len, hmBlen]
  have hzip : List.zipWith (fun a b => a && b)
        ((List.range t.headers.length).map (fun j => !(colAllMissingB t j)))
        ((List.range t.headers.length).map (fun j => !(colAllBlankB t j))) =
      (List.range t.headers.length).map
        (fun j => !(colAllMissingB t j) && !(colAllBlankB t j)) :=
    zipWith_map_same _ _ _ _
  simp only [remove_empty_rows_columns]
  rw [hm2]
  rw [dropByMask_twice _ _ t hlen12]
  rw [hzip]
  simp only [pruneSpec, dropByMask]
  rw [filter_comm_and]

theorem wrapQ_fixed (q : ℚ) (h0 : -180 ≤ q) (h1 : q < 180) : wrapQ q = q := by
  have hf : ⌊(q + 180) / 360⌋ = 0 := by
    rw [Int.floor_eq_zero_iff]
    rw [Set.mem_Ico]
    constructor
    · apply div_nonneg <;> linarith
    · rw [div_lt_one (by norm_num)]
      linarith
  rw [wrapQ, pymod, hf]
  push_cast
  ring

/-! ### Typedness and phase-range lemmas (for C8) -/

theorem typed_filter {t : Table} (p : List Cell → Bool) (ht : typedTableP t) :
    typedTableP (⟨t.headers, t.rows.filter p⟩ : Table) :=
  fun pr hpr hn c hc => ht pr hpr hn c (mem_getCol_filter hc)

theorem typed_mapColsIf {t : Table} (cond : Header → Bool) (f : Cell → Cell)
    (hrect : rect t = true)
    (hf : ∀ c, (c = Cell.missing ∨ cellIsNum c = true) →
      (f c = Cell.missing ∨ cellIsNum (f c) = true))
    (ht : typedTableP t) : typedTableP (mapColsIf cond (fun h => h) f t) := by
  intro pr hpr hn c hc
  rw [mapColsIf_id_headers] at hpr
  obtain ⟨hlt, _⟩ := mem_withIdx_getD t.headers pr dummyHeader hpr
  rw [mapColsIf_getCol cond (fun h => h) f t pr.1 hrect hlt] at hc
  by_cases hcnd : cond (hdrAt t pr.1) = true
  · rw [if_pos hcnd] at hc
    rcases List.mem_map.mp hc with ⟨c0, hc0, hEq⟩
    rw [← hEq]
    exact hf c0 (ht pr hpr hn c0 hc0)
  · rw [if_neg hcnd] at hc
    exact ht pr hpr hn c hc

theorem roundIntCell_typed (c : Cell) (h : c = Cell.missing ∨ cellIsNum c = true) :
    roundIntCell c = Cell.missing ∨ cellIsNum (roundIntCell c) = true := by
  rcases h with h | h
  · subst h
    left
    rfl
  · cases c with
    | num q => right; rfl
    | str s => simp [cellIsNum] at h
    | dt q => simp [cellIsNum] at h
    | missing => left; rfl

theorem phase_range_after_wrap (t2 : Table) (hrect2 : rect t2 = true)
    (ht2 : typedTableP t2) :
    phaseRangeP (mapColsIf isPhaseHdr (fun h => h) wrapCell t2) := by
  intro pr hpr hph c hc q hcq
  rw [mapColsIf_id_headers] at hpr
  obtain ⟨hlt, hval⟩ := mem_withIdx_getD t2.headers pr dummyHeader hpr
  rw [mapColsIf_getCol isPhaseHdr (fun h => h) wrapCell t2 pr.1 hrect2 hlt] at hc
  have hcnd : isPhaseHdr (hdrAt t2 pr.1) = true := by
    rw [hdrAt, ← hval]
    exact hph
  rw [if_pos hcnd] at hc
  rcases List.mem_map.mp hc with ⟨c0, hc0, hEq⟩
  have hnum : pr.2.numeric = true := by
    rw [isPhaseHdr, Bool.and_eq_true] at hph
    exact hph.2
  rcases ht2 pr hpr hnum c0 hc0 with hm | hn
  · rw [hm] at hEq
    rw [← hEq] at hcq
    exact absurd hcq (by simp [wrapCell])
  · cases c0 with
    | num q0 =>
      rw [← hEq] at hcq
      have : wrapQ q0 = q := by
        have := hcq
        simpa [wrapCell] using this
      rw [← this]
      exact wrapQ_bounds q0
    | str s => simp [cellIsNum] at hn
    | dt q0 => simp [cellIsNum] at hn
    | missing => simp [cellIsNum] at hn

/-! ### Analyzer membership lemmas -/

theorem mem_guard {α : Type} {x a : α} {c1 : Prop} [Decidable c1] {c2 : Prop}
    [Decidable c2] :
    (a ∈ if c1 then (if c2 then ([] : List α) else [x]) else []) ↔
      c1 ∧ ¬c2 ∧ a = x := by
  by_cases h1 : c1 <;> by_cases h2 : c2 <;> simp [h1, h2]

theorem mem_analyze_voltage {df : Table} {total : ℕ} {r : VoltRec}
    (h : r ∈ analyze_voltage_deviations df total) :
    ∃ tgt ∈ voltage_targets, ∃ p ∈ resolveCols df tgt,
      p.2.numeric = true ∧ colVals df p.1 ≠ [] ∧
      r = mkVoltRec p.2.label (colVals df p.1) total := by
  unfold analyze_voltage_deviations at h
  rcases List.mem_flatMap.mp h with ⟨tgt, htgt, h2⟩
  rcases List.mem_flatMap.mp h2 with ⟨p, hp, h3⟩
  rw [mem_guard] at h3
  exact ⟨tgt, htgt, p, hp, h3.1, h3.2.1, h3.2.2⟩

theorem mem_analyze_flickers {df : Table} {total : ℕ} {r : FlickRec}
    (h : r ∈ analyze_flickers df total) :
    ∃ tgt ∈ flicker_targets, ∃ p ∈ resolveCols df tgt,
      p.2.numeric = true ∧ colVals df p.1 ≠ [] ∧
      r = mkFlickRec p.2.label (colVals df p.1) total := by
  unfold analyze_flickers at h
  rcases List.mem_flatMap.mp h with ⟨tgt, htgt, h2⟩
  rcases List.mem_flatMap.mp h2 with ⟨p, hp, h3⟩
  rw [mem_guard] at h3
  exact ⟨tgt, htgt, p, hp, h3.1, h3.2.1, h3.2.2⟩

theorem mem_analyze_thd {df : Table} {total : ℕ} {r : ThdRec}
    (h : r ∈ analyze_thd df total) :
    ∃ tgt ∈ thd_targets, ∃ p ∈ resolveCols df tgt,
      p.2.numeric = true ∧ colVals df p.1 ≠ [] ∧
      r = mkThdRec p.2.label (colVals df p.1) total := by
  unfold analyze_thd at h
  rcases List.mem_flatMap.mp h with ⟨tgt, htgt, h2⟩
  rcases List.mem_flatMap.mp h2 with ⟨p, hp, h3⟩
  rw [mem_guard] at h3
  exact ⟨tgt, htgt, p, hp, h3.1, h3.2.1, h3.2.2⟩

theorem mem_analyze_armonicos {df : Table} {r : HarmRec}
    (h : r ∈ analyze_armonicos_complete df) :
    ∃ p ∈ withIdx df.headers, hasPHL p.2.label = true ∧
      extract_harmonic_order p.2.label ≠ 1 ∧ p.2.numeric = true ∧
      colVals df p.1 ≠ [] ∧ r = mkHarmRec p.2.label (colVals df p.1) := by
  unfold analyze_armonicos_complete at h
  rcases List.mem_flatMap.mp h with ⟨p, hp, h2⟩
  rcases List.mem_filter.mp hp with ⟨hpm, hcond⟩
  rw [Bool.and_eq_true, decide_eq_true_iff] at hcond
  rw [mem_guard] at h2
  exact ⟨p, hpm, hcond.1, hcond.2, h2.1, h2.2.1, h2.2.2⟩

/-! ### Regex-extraction lemmas (for C7) -/

theorem takeWhile_append_all {p : Char → Bool} (ds tl : List Char)
    (h1 : ∀ c ∈ ds, p c = true) (h2 : ∀ c, tl.head? = some c → p c = false) :
    (ds ++ tl).takeWhile p = ds := by
  induction ds with
  | nil =>
    cases tl with
    | nil => rfl
    | cons c t =>
      have := h2 c rfl
      simp [List.takeWhile_cons, this]
  | cons a dsT ih =>
    have ha := h1 a (List.mem_cons_self _ _)
    have := ih (fun c hc => h1 c (List.mem_cons_of_mem _ hc))
    simp [List.takeWhile_cons, ha, this]

theorem typedTableB_spec {t : Table} (h : typedTableB t = true) : typedTableP t := by
  intro p hp hn c hc
  have h1 := List.all_eq_true.mp h p hp
  rw [hn] at h1
  have h2 : (getCol t p.1).all (fun c => c == Cell.missing || cellIsNum c) = true := by
    simpa using h1
  have h3 := List.all_eq_true.mp h2 c hc
  by_cases hmiss : c = Cell.missing
  · left
    exact hmiss
  · right
    have hb : (c == Cell.missing) = false := by simp [hmiss]
    rw [hb] at h3
    simpa using h3

/-! ### Claim theorems -/

/-- C1: every record emitted by the voltage-deviation rule comes from a
resolved numeric channel with at least one non-missing value; its
nominal is that channel's own arithmetic mean (not an external
nominal), its stored limits are the 3-decimal display roundings of
nominal * 1.08 and nominal * 0.92 exactly as the source stores them,
its violation count is the number of values strictly above the
unrounded upper limit or strictly below the unrounded lower limit, and
excede_limite is true exactly when that count is positive. -/
theorem voltage_deviation_rule (df : Table) (total : ℕ) (r : VoltRec)
    (h : r ∈ analyze_voltage_deviations df total) :
    ∃ p ∈ withIdx df.headers, r.parametro = p.2.label ∧ p.2.numeric = true ∧
      colVals df p.1 ≠ [] ∧
      r.voltaje_promedio = roundTo 3 (mean (colVals df p.1)) ∧
      r.limite_superior = roundTo 3 (mean (colVals df p.1) * 1.08) ∧
      r.limite_inferior = roundTo 3 (mean (colVals df p.1) * 0.92) ∧
      r.violaciones = ((colVals df p.1).filter (fun v =>
        decide (mean (colVals df p.1) * 1.08 < v) ||
          decide (v < mean (colVals df p.1) * 0.92))).length ∧
      (r.excede_limite = true ↔ 0 < r.violaciones) := by
  rcases mem_analyze_voltage h with ⟨tgt, htgt, p, hp, hnum, hne, hEq⟩
  refine ⟨p, (List.mem_filter.mp hp).1, ?_⟩
  subst hEq
  refine ⟨rfl, hnum, hne, rfl, rfl, rfl, rfl, ?_⟩
  exact decide_eq_true_iff

/-- C1 witness: the voltage-deviation theorem applied to a concrete
one-channel table with values 92, 100, 108. -/
theorem voltage_deviation_rule_witness :
    ∃ p ∈ withIdx dfVolt.headers, recVolt.parametro = p.2.label ∧ p.2.numeric = true ∧
      colVals dfVolt p.1 ≠ [] ∧
      recVolt.voltaje_promedio = roundTo 3 (mean (colVals dfVolt p.1)) ∧
      recVolt.limite_superior = roundTo 3 (mean (colVals dfVolt p.1) * 1.08) ∧
      recVolt.limite_inferior = roundTo 3 (mean (colVals dfVolt p.1) * 0.92) ∧
      recVolt.violaciones = ((colVals dfVolt p.1).filter (fun v =>
        decide (mean (colVals dfVolt p.1) * 1.08 < v) ||
          decide (v < mean (colVals dfVolt p.1) * 0.92))).length ∧
      (recVolt.excede_limite = true ↔ 0 < recVolt.violaciones) :=
  voltage_deviation_rule dfVolt 3 recVolt (by with_unfolding_all decide)

/-- C2: every emitted record's percentage is violations divided by
total_measurements times 100 (stored with the source's 6-decimal
rounding, 8 decimals for harmonics), where total_measurements is the
analyzed table's row count for the voltage, flicker and THD categories
but the fixed constant 2150 for every harmonic record, independent of
the table's row count. -/
theorem percentage_denominator_invariant (df : Table) :
    (∀ r ∈ (analyze_tendencia_complete df).voltage_deviations,
      r.total_mediciones = df.rows.length ∧
      r.porcentaje_desviacion =
        roundTo 6 ((r.violaciones : ℚ) / (df.rows.length : ℚ) * 100)) ∧
    (∀ r ∈ (analyze_tendencia_complete df).flickers,
      r.total_mediciones = df.rows.length ∧
      r.porcentaje_flicker =
        roundTo 6 ((r.violaciones : ℚ) / (df.rows.length : ℚ) * 100)) ∧
    (∀ r ∈ (analyze_tendencia_complete df).thd_analysis,
      r.total_mediciones = df.rows.length ∧
      r.porcentaje_thd =
        roundTo 6 ((r.violaciones : ℚ) / (df.rows.length : ℚ) * 100)) ∧
    (∀ r ∈ analyze_armonicos_complete df,
      r.total_mediciones = harmonic_total_measurements ∧
      harmonic_total_measurements = 2150 ∧
      r.porcentaje =
        roundTo 8 ((r.valores_negativos : ℚ) / (2150 : ℚ) * 100)) := by
  refine ⟨fun r hr => ?_, fun r hr => ?_, fun r hr => ?_, fun r hr => ?_⟩
  · rcases mem_analyze_voltage
        (show r ∈ analyze_voltage_deviations df df.rows.length from hr) with
      ⟨tgt, htgt, p, hp, hnum, hne, hEq⟩
    subst hEq
    exact ⟨rfl, rfl⟩
  · rcases mem_analyze_flickers
        (show r ∈ analyze_flickers df df.rows.length from hr) with
      ⟨tgt, htgt, p, hp, hnum, hne, hEq⟩
    subst hEq
    exact ⟨rfl, rfl⟩
  · rcases mem_analyze_thd
        (show r ∈ analyze_thd df df.rows.length from hr) with
      ⟨tgt, htgt, p, hp, hnum, hne, hEq⟩
    subst hEq
    exact ⟨rfl, rfl⟩
  · rcases mem_analyze_armonicos hr with ⟨p, hpm, hphl, hord, hnum, hne, hEq⟩
    subst hEq
    exact ⟨rfl, rfl, rfl⟩

/-- C2 witness: the invariant applied to a concrete one-channel table. -/
theorem percentage_denominator_invariant_witness :
    (∀ r ∈ (analyze_tendencia_complete dfVolt).voltage_deviations,
      r.total_mediciones = dfVolt.rows.length ∧
      r.porcentaje_desviacion =
        roundTo 6 ((r.violaciones : ℚ) / (dfVolt.rows.length : ℚ) * 100)) ∧
    (∀ r ∈ (analyze_tendencia_complete dfVolt).flickers,
      r.total_mediciones = dfVolt.rows.length ∧
      r.porcentaje_flicker =
        roundTo 6 ((r.violaciones : ℚ) / (dfVolt.rows.length : ℚ) * 100)) ∧
    (∀ r ∈ (analyze_tendencia_complete dfVolt).thd_analysis,
      r.total_mediciones = dfVolt.rows.length ∧
      r.porcentaje_thd =
        roundTo 6 ((r.violaciones : ℚ) / (dfVolt.rows.length : ℚ) * 100)) ∧
    (∀ r ∈ analyze_armonicos_complete dfVolt,
      r.total_mediciones = harmonic_total_measurements ∧
      harmonic_total_measurements = 2150 ∧
      r.porcentaje =
        roundTo 8 ((r.valores_negativos : ℚ) / (2150 : ℚ) * 100)) :=
  percentage_denominator_invariant dfVolt

/-- C3: no harmonic record in the analysis result carries harmonic
order 1: a column whose extracted order is 1 (the fundamental) never
produces a record, for any input table. -/
theorem no_fundamental_harmonic_records (df : Table) (r : HarmRec)
    (h : r ∈ analyze_armonicos_complete df) : r.orden_armonico ≠ 1 := by
  rcases mem_analyze_armonicos h with ⟨p, hpm, hphl, hord, hnum, hne, hEq⟩
  subst hEq
  exact hord

/-- C3 witness: the theorem applied to a concrete order-3 channel. -/
theorem no_fundamental_harmonic_records_witness : recHarm3.orden_armonico ≠ 1 :=
  no_fundamental_harmonic_records dfHarm3 recHarm3 (by with_unfolding_all decide)

theorem contains_inr_map_inl (ns : List ℕ) (s : String) :
    ((ns.map (Sum.inr : ℕ → AxisLabel)).contains (Sum.inl s)) = false := by
  induction ns with
  | nil => rfl
  | cons n tl ih => exact ih

/-- the unnamed-column filter of `_clean_column_names` raises on every
table with at least one column: the mask Series carries integer index
labels that never align with the string column labels. -/
theorem clean_column_names_strict_error (t : Table) (h : t.headers ≠ []) :
    clean_column_names_strict t = Except.error () := by
  obtain ⟨a, tl, htl⟩ : ∃ a tl, t.headers = a :: tl := by
    cases hs : t.headers with
    | nil => exact absurd hs h
    | cons a tl => exact ⟨a, tl, rfl⟩
  simp [clean_column_names_strict, htl, boolMaskAligns, contains_inr_map_inl]

/-- C4: clean is idempotent on every table it actually produces:
whenever `clean_data_strict` returns a table `u` (rather than raising),
running it again on `u` with the same file type and gap-fill strategy
returns `u` itself — no row or column is removed and no cell changes.
The property holds degenerately in the program: the unnamed-column
filter raises for every input that still has a column (claim C5), so
the only tables clean ever returns are empty frames, and cleaning an
empty frame returns it unchanged. -/
theorem clean_idempotent_on_outputs (df : Option Table) (file_type method : String)
    (u : Table) (h : clean_data_strict df file_type method = Except.ok u) :
    clean_data_strict (some u) file_type method = Except.ok u := by
  have hu : u = emptyTable := by
    cases df with
    | none =>
      simp only [clean_data_strict] at h
      exact (Except.ok.inj h).symm
    | some t =>
      simp only [clean_data_strict] at h
      by_cases he : (t.rows.isEmpty || t.headers.isEmpty) = true
      · rw [if_pos he] at h
        exact (Except.ok.inj h).symm
      · rw [if_neg he] at h
        have hne : t.headers ≠ [] := by
          intro hnil
          apply he
          rw [hnil]
          simp
        rw [clean_column_names_strict_error t hne] at h
        simp only [Except.map] at h
        exact Except.noConfusion h
  subst hu
  rfl

/-- C4 witness: the idempotence applied to the empty frame produced by
cleaning a None input. -/
theorem clean_idempotent_on_outputs_witness :
    clean_data_strict (some emptyTable) "tendencia" "linear_interpolation" =
      Except.ok emptyTable :=
  clean_idempotent_on_outputs none "tendencia" "linear_interpolation" emptyTable rfl

/-- C5 (code bug): the faithful model of clean_data raises (returns the
error of the unalignable boolean-Series indexer in the unnamed-column
filter) for every input that still has a column, while a None input
yields the empty table as the claim says; and per-cell numeric
coercion turns unparseable text into a missing value, never an error. -/
theorem clean_data_raises_eval :
    clean_data_strict (some ce5) "tendencia" "linear_interpolation" =
      Except.error () ∧
    clean_data_strict none "tendencia" "linear_interpolation" =
      Except.ok emptyTable ∧
    (∀ s : String, parseFloatQ (stripNonNumeric s) = none →
      convert_to_numeric (Cell.str s) = Cell.missing) := by
  refine ⟨by with_unfolding_all rfl, by with_unfolding_all rfl, fun s hs => ?_⟩
  simp only [convert_to_numeric]
  by_cases he : (stripNonNumeric s).isEmpty = true
  · rw [if_pos he]
  · rw [if_neg he, hs]

/-- C5 witness: the coercion conjunct applied to a concrete
unparseable cell. -/
theorem clean_data_raises_eval_witness :
    convert_to_numeric (Cell.str "abc") = Cell.missing :=
  clean_data_raises_eval.2.2 "abc" (by with_unfolding_all decide)

/-- C6: phase extraction scans the lower-cased label for the literal
substrings "l1", "l2", "l3" in that priority order, the first match
determining the phase, with GENERAL when none occurs; and the example
label "Pst L2 instant. 10 min" resolves to L2. -/
theorem phase_extraction_rule :
    (∀ s : String,
      (extract_phase_from_column s = "L1" ↔ strHasSub (lowerStr s) "l1" = true) ∧
      (extract_phase_from_column s = "L2" ↔
        (strHasSub (lowerStr s) "l1" = false ∧ strHasSub (lowerStr s) "l2" = true)) ∧
      (extract_phase_from_column s = "L3" ↔
        (strHasSub (lowerStr s) "l1" = false ∧ strHasSub (lowerStr s) "l2" = false ∧
          strHasSub (lowerStr s) "l3" = true)) ∧
      (extract_phase_from_column s = "GENERAL" ↔
        (strHasSub (lowerStr s) "l1" = false ∧ strHasSub (lowerStr s) "l2" = false ∧
          strHasSub (lowerStr s) "l3" = false))) ∧
    extract_phase_from_column "Pst L2 instant. 10 min" = "L2" := by
  constructor
  · intro s
    unfold extract_phase_from_column
    by_cases h1 : strHasSub (lowerStr s) "l1" = true
    · simp [h1]
    · have hf1 : strHasSub (lowerStr s) "l1" = false := Bool.eq_false_iff.mpr h1
      by_cases h2 : strHasSub (lowerStr s) "l2" = true
      · simp [hf1, h2]
      · have hf2 : strHasSub (lowerStr s) "l2" = false := Bool.eq_false_iff.mpr h2
        by_cases h3 : strHasSub (lowerStr s) "l3" = true
        · simp [hf1, hf2, h3]
        · have hf3 : strHasSub (lowerStr s) "l3" = false := Bool.eq_false_iff.mpr h3
          simp [hf1, hf2, hf3]
  · with_unfolding_all decide

/-- C6 witness: the characterization applied to a concrete label. -/
theorem phase_extraction_rule_witness :
    (extract_phase_from_column "abc" = "L1" ↔
      strHasSub (lowerStr "abc") "l1" = true) ∧
    (extract_phase_from_column "abc" = "L2" ↔
      (strHasSub (lowerStr "abc") "l1" = false ∧
        strHasSub (lowerStr "abc") "l2" = true)) ∧
    (extract_phase_from_column "abc" = "L3" ↔
      (strHasSub (lowerStr "abc") "l1" = false ∧
        strHasSub (lowerStr "abc") "l2" = false ∧
        strHasSub (lowerStr "abc") "l3" = true)) ∧
    (extract_phase_from_column "abc" = "GENERAL" ↔
      (strHasSub (lowerStr "abc") "l1" = false ∧
        strHasSub (lowerStr "abc") "l2" = false ∧
        strHasSub (lowerStr "abc") "l3" = false)) :=
  phase_extraction_rule.1 "abc"

/-- C7 counterexample: the column "P H 0 L1" matches the harmonic
pattern, is not excluded (0 is not 1), and produces a record whose
harmonic order is 0, refuting the claim that every harmonic channel's
extracted order is at least 1. -/
theorem harmonic_order_zero_cex :
    recHarm0 ∈ analyze_armonicos_complete dfHarm0 ∧
    ¬ (1 ≤ recHarm0.orden_armonico) := by
  with_unfolding_all decide

/-- C7 (amended): harmonic-order extraction matches the literal pattern
"P H " followed by an integer and returns that integer — which may be
0, as in "P H 0 L1" — and returns 1 when the pattern does not occur, so
unparseable labels are treated as fundamental and excluded; every
harmonic record's order equals the extraction on its own label and is
a natural number different from 1, but not necessarily at least 1. -/
theorem harmonic_order_extraction_rule :
    (∀ ds tl : List Char, ds ≠ [] → (∀ c ∈ ds, c.isDigit = true) →
      (tl.headD ' ').isDigit = false →
      extract_harmonic_order (String.mk ('P' :: ' ' :: 'H' :: ' ' :: (ds ++ tl))) =
        digitsVal ds) ∧
    (∀ s : String, phSearch s.toList = none → extract_harmonic_order s = 1) ∧
    (∀ (df : Table) (r : HarmRec), r ∈ analyze_armonicos_complete df →
      r.orden_armonico = extract_harmonic_order r.parametro ∧
      r.orden_armonico ≠ 1) := by
  refine ⟨?_, ?_, ?_⟩
  · intro ds tl hne hds htl
    have htl2 : ∀ c, tl.head? = some c → Char.isDigit c = false := by
      intro c hc
      cases tl with
      | nil => cases hc
      | cons a tt =>
        have hac : a = c := by
          have : some a = some c := hc
          exact Option.some.inj this
        subst hac
        simpa [List.headD] using htl
    have htk : (ds ++ tl).takeWhile Char.isDigit = ds :=
      takeWhile_append_all ds tl hds htl2
    cases ds with
    | nil => exact absurd rfl hne
    | cons d dst =>
      have hph : phAt ('P' :: ' ' :: 'H' :: ' ' :: ((d :: dst) ++ tl)) =
          some (digitsVal (d :: dst)) := by
        simp only [phAt, htk]
        rfl
      have hsearch : phSearch ('P' :: ' ' :: 'H' :: ' ' :: ((d :: dst) ++ tl)) =
          some (digitsVal (d :: dst)) := by
        rw [phSearch, hph]
      unfold extract_harmonic_order
      have hlist : (String.mk ('P' :: ' ' :: 'H' :: ' ' :: ((d :: dst) ++ tl))).toList =
          'P' :: ' ' :: 'H' :: ' ' :: ((d :: dst) ++ tl) := rfl
      rw [hlist, hsearch]
      rfl
  · intro s h
    unfold extract_harmonic_order
    rw [h]
    rfl
  · intro df r hr
    rcases mem_analyze_armonicos hr with ⟨p, hpm, hphl, hord, hnum, hne, hEq⟩
    subst hEq
    exact ⟨rfl, hord⟩

/-- C7 witness: the extraction applied to the start-anchored label
"P H 3 L1". -/
theorem harmonic_order_extraction_rule_witness :
    extract_harmonic_order
      (String.mk ('P' :: ' ' :: 'H' :: ' ' :: (['3'] ++ [' ', 'L', '1']))) =
      digitsVal ['3'] :=
  harmonic_order_extraction_rule.1 ['3'] [' ', 'L', '1']
    (by with_unfolding_all decide) (by with_unfolding_all decide)
    (by with_unfolding_all decide)

/-- C8: the phase wrap ((x + 180) mod 360) - 180 used by the harmonic
cleaners always lands in [-180, 180); consequently, in the output of
both file-type-specific harmonic cleaners, every number in a numeric
phase/angle column lies in [-180, 180), for every rectangular,
well-typed input table. -/
theorem phase_wrap_range :
    (∀ q : ℚ, -180 ≤ wrapQ q ∧ wrapQ q < 180) ∧
    (∀ t : Table, rect t = true → typedTableB t = true →
      phaseRangeP (clean_armonicos_potencia_data t) ∧
      phaseRangeP (clean_armonicos_voltaje_data t)) := by
  refine ⟨wrapQ_bounds, fun t hrect htB => ?_⟩
  have htyped := typedTableB_spec htB
  constructor
  · exact phase_range_after_wrap _
      (rect_mapColsIf _ _ _ (rect_filter _ hrect))
      (typed_mapColsIf _ _ (rect_filter _ hrect) roundIntCell_typed
        (typed_filter _ htyped))
  · exact phase_range_after_wrap _
      (rect_filter _ (rect_mapColsIf _ _ _ (rect_filter _ hrect)))
      (typed_filter _ (typed_mapColsIf _ _ (rect_filter _ hrect) roundIntCell_typed
        (typed_filter _ htyped)))

/-- C8 witness: the range property applied to a concrete table whose
phase column holds 200. -/
theorem phase_wrap_range_witness :
    phaseRangeP (clean_armonicos_potencia_data dfPhase) ∧
    phaseRangeP (clean_armonicos_voltaje_data dfPhase) :=
  phase_wrap_range.2 dfPhase (by with_unfolding_all decide)
    (by with_unfolding_all decide)

/-- C9 counterexample: in `ce9` the second column is entirely blank
strings and is dropped; the first row is neither all-missing nor
all-blank on the original table (its blank-string cell is not missing,
and its missing cell does not stringify blank), yet it is dropped,
because the source judges rows only after the columns are removed. -/
theorem row_pruning_after_column_pruning_cex :
    rowAllMissing [Cell.missing, Cell.str ""] = false ∧
    rowAllBlank [Cell.missing, Cell.str ""] = false ∧
    remove_empty_rows_columns ce9 =
      (⟨[⟨"c1", false⟩], [[Cell.num 1]]⟩ : Table) := by
  with_unfolding_all decide

/-- C9 (amended): in the emptiness pruning, columns are judged (and
dropped) on the original table, and a row is then dropped exactly when
its cells restricted to the surviving columns are entirely missing or
entirely blank; a row that is non-empty only in a dropped column is
dropped as well. -/
theorem row_pruning_characterization (t : Table) (hrect : rect t = true) :
    remove_empty_rows_columns t = pruneSpec t :=
  remove_empty_characterization_aux t hrect

/-- C9 witness: the characterization applied to the concrete table. -/
theorem row_pruning_characterization_witness :
    remove_empty_rows_columns ce9 = pruneSpec ce9 :=
  row_pruning_characterization ce9 (by with_unfolding_all decide)

/-- C10: in all four rule families, every emitted record comes from a
column that matches the family's target pattern, has numeric dtype and
has at least one non-missing value; a matching column that is
non-numeric or holds no values produces no record. -/
theorem records_only_for_nonempty_numeric_channels (df : Table) (total : ℕ) :
    (∀ r ∈ analyze_voltage_deviations df total, ∃ p ∈ withIdx df.headers,
      (∃ tgt ∈ voltage_targets,
        strHasSub (lowerStr p.2.label) (lowerStr tgt) = true) ∧
      p.2.numeric = true ∧ colVals df p.1 ≠ [] ∧ r.parametro = p.2.label) ∧
    (∀ r ∈ analyze_flickers df total, ∃ p ∈ withIdx df.headers,
      (∃ tgt ∈ flicker_targets,
        strHasSub (lowerStr p.2.label) (lowerStr tgt) = true) ∧
      p.2.numeric = true ∧ colVals df p.1 ≠ [] ∧ r.parametro = p.2.label) ∧
    (∀ r ∈ analyze_thd df total, ∃ p ∈ withIdx df.headers,
      (∃ tgt ∈ thd_targets,
        strHasSub (lowerStr p.2.label) (lowerStr tgt) = true) ∧
      p.2.numeric = true ∧ colVals df p.1 ≠ [] ∧ r.parametro = p.2.label) ∧
    (∀ r ∈ analyze_armonicos_complete df, ∃ p ∈ withIdx df.headers,
      hasPHL p.2.label = true ∧ extract_harmonic_order p.2.label ≠ 1 ∧
      p.2.numeric = true ∧ colVals df p.1 ≠ [] ∧ r.parametro = p.2.label) := by
  refine ⟨fun r hr => ?_, fun r hr => ?_, fun r hr => ?_, fun r hr => ?_⟩
  · rcases mem_analyze_voltage hr with ⟨tgt, htgt, p, hp, hnum, hne, hEq⟩
    rcases List.mem_filter.mp hp with ⟨hpm, hmatch⟩
    subst hEq
    exact ⟨p, hpm, ⟨tgt, htgt, hmatch⟩, hnum, hne, rfl⟩
  · rcases mem_analyze_flickers hr with ⟨tgt, htgt, p, hp, hnum, hne, hEq⟩
    rcases List.mem_filter.mp hp with ⟨hpm, hmatch⟩
    subst hEq
    exact ⟨p, hpm, ⟨tgt, htgt, hmatch⟩, hnum, hne, rfl⟩
  · rcases mem_analyze_thd hr with ⟨tgt, htgt, p, hp, hnum, hne, hEq⟩
    rcases List.mem_filter.mp hp with ⟨hpm, hmatch⟩
    subst hEq
    exact ⟨p, hpm, ⟨tgt, htgt, hmatch⟩, hnum, hne, rfl⟩
  · rcases mem_analyze_armonicos hr with ⟨p, hpm, hphl, hord, hnum, hne, hEq⟩
    subst hEq
    exact ⟨p, hpm, hphl, hord, hnum, hne, rfl⟩

/-- C10 witness: the resolution property applied to a concrete table. -/
theorem records_only_for_nonempty_numeric_channels_witness :
    (∀ r ∈ analyze_voltage_deviations dfVolt 3, ∃ p ∈ withIdx dfVolt.headers,
      (∃ tgt ∈ voltage_targets,
        strHasSub (lowerStr p.2.label) (lowerStr tgt) = true) ∧
      p.2.numeric = true ∧ colVals dfVolt p.1 ≠ [] ∧ r.parametro = p.2.label) ∧
    (∀ r ∈ analyze_flickers dfVolt 3, ∃ p ∈ withIdx dfVolt.headers,
      (∃ tgt ∈ flicker_targets,
        strHasSub (lowerStr p.2.label) (lowerStr tgt) = true) ∧
      p.2.numeric = true ∧ colVals dfVolt p.1 ≠ [] ∧ r.parametro = p.2.label) ∧
    (∀ r ∈ analyze_thd dfVolt 3, ∃ p ∈ withIdx dfVolt.headers,
      (∃ tgt ∈ thd_targets,
        strHasSub (lowerStr p.2.label) (lowerStr tgt) = true) ∧
      p.2.numeric = true ∧ colVals dfVolt p.1 ≠ [] ∧ r.parametro = p.2.label) ∧
    (∀ r ∈ analyze_armonicos_complete dfVolt, ∃ p ∈ withIdx dfVolt.headers,
      hasPHL p.2.label = true ∧ extract_harmonic_order p.2.label ≠ 1 ∧
      p.2.numeric = true ∧ colVals dfVolt p.1 ≠ [] ∧ r.parametro = p.2.label) :=
  records_only_for_nonempty_numeric_channels dfVolt 3

end DataDebugger
